import Mathlib

/-!
# Scope lookup by program counter (`libdrgn/elfutils/libdw/dwarf_getfuncs_pc.c`)

A shallow embedding of `pc_match`, `pc_record` and `dwarf_getfuncs_pc`, and the
properties of the scope chain they compute.

* The debug-information tree is given in the first-child / next-sibling form
  in which libdw hands it out (`dwarf_child`, `dwarf_siblingof`).
* `struct args` and the libdw error state are threaded explicitly.
* The heap block behind `a->scopes` is modelled by `ScopesPtr`; an
  out-of-bounds store into it has no defined result (`none`).
* The range test `dwarf_haspc`, the error it leaves behind, `malloc` and
  `realloc` are parameters.
* Depths and counts are natural numbers: they are bounded by the nesting depth
  of the tree, far below the range of `unsigned int` and `int`.
* The pointer `realloc` returns is kept in the local `scopes` of `pc_record`
  only; `a->scopes` keeps the old pointer, which is still good when the block
  was trimmed in place and refers to a released block when it was moved.
-/

set_option autoImplicit false

namespace Drgn

/-! ## Constants of `dwarf.h` and `libdwP.h`

Neither header is among the sources at hand.  Of the tag values only their
being distinct is used; the general results do not depend on them. -/

/-- Modelled from the spec: the tag of a lexical block, a kind that is not
executable; the value is that of `DW_TAG_lexical_block` in `dwarf.h`. -/
def DW_TAG_lexical_block : Nat := 0x0b
/-- Modelled from the spec: the tag of a compilation unit; the value is that of
`DW_TAG_compile_unit` in `dwarf.h`. -/
def DW_TAG_compile_unit : Nat := 0x11
/-- Modelled from the spec: the tag of a subroutine type (executable kind); the
value is that of `DW_TAG_subroutine_type` in `dwarf.h`. -/
def DW_TAG_subroutine_type : Nat := 0x15
/-- Modelled from the spec: the tag of an inlined subroutine (executable kind);
the value is that of `DW_TAG_inlined_subroutine` in `dwarf.h`. -/
def DW_TAG_inlined_subroutine : Nat := 0x1d
/-- Modelled from the spec: the tag of a subprogram (executable kind); the
value is that of `DW_TAG_subprogram` in `dwarf.h`. -/
def DW_TAG_subprogram : Nat := 0x2e
/-- Modelled from the spec: the tag of a namespace, a kind that is not
executable; the value is that of `DW_TAG_namespace` in `dwarf.h`. -/
def DW_TAG_namespace : Nat := 0x39

/-- Modelled from the spec: the error codes of libdw (the enumeration of
`libdwP.h`): the four codes the source names, and every other code under a
number of its own. -/
inductive Dwarf_Error where
  | DWARF_E_NOERROR
  | DWARF_E_NOMEM
  | DWARF_E_NO_DEBUG_RANGES
  | DWARF_E_NO_DEBUG_RNGLISTS
  | DWARF_E_OTHER (code : Nat)
deriving DecidableEq, Repr

open Dwarf_Error

/-! ## Data model -/

/-- A debugging information entry: `addr` is its identity (where the entry
lives in `.debug_info`), `tag` is what `dwarf_tag` returns for it. -/
structure Dwarf_Die where
  addr : Nat
  tag : Nat
deriving DecidableEq, Repr

/-- A run of sibling entries with their subtrees, in document order:
`cons die children sibling` is an entry, what `dwarf_child` reaches from it and
what `dwarf_siblingof` reaches from it. -/
inductive Dies where
  | nil : Dies
  | cons (die : Dwarf_Die) (children : Dies) (sibling : Dies) : Dies
deriving DecidableEq, Repr

/-- A root entry with the entries below it. -/
structure DieTree where
  die : Dwarf_Die
  children : Dies
deriving DecidableEq, Repr

/-- The traversal path entry `struct Dwarf_Die_Chain`: the entry itself, the
entries of the `parent` links (nearest first, the root last) and the prune
flag. -/
structure Dwarf_Die_Chain where
  die : Dwarf_Die
  parent : List Dwarf_Die
  prune : Bool
deriving DecidableEq, Repr

/-- What `a->scopes` points to: `NULL`, a live heap block of `cap` slots whose
first `cells.length` slots hold `cells`, or a block that has been released. -/
inductive ScopesPtr where
  | null
  | block (cap : Nat) (cells : List Dwarf_Die)
  | dangling
deriving DecidableEq, Repr

/-- The query state `struct args`. -/
structure args where
  pc : Nat
  scopes : ScopesPtr
  nscopes : Nat
deriving DecidableEq, Repr

/-- What both visitors work on: the query state behind `arg` and the libdw
error state (`dwarf_errno` reads and clears it, `__libdw_seterrno` sets it). -/
structure State where
  a : args
  global_error : Dwarf_Error
deriving DecidableEq, Repr

/-- The debug-information provider: `dwarf_haspc die pc` is the value of the
range test (positive: contained, zero: not contained, negative: failed) and
`dwarf_errno die pc` the error code `dwarf_errno ()` yields right after a
failed test. -/
structure Provider where
  dwarf_haspc : Dwarf_Die → Nat → Int
  dwarf_errno : Dwarf_Die → Nat → Dwarf_Error

/-- What `realloc` does with the block: it fails, it trims the block where it
is, or it hands out a trimmed copy elsewhere and releases the old block. -/
inductive ReallocResult where
  | failed
  | in_place
  | moved
deriving DecidableEq, Repr

/-- The allocator seen by one query (`malloc` and `realloc` are each called at
most once). -/
structure Allocator where
  malloc_ok : Bool
  realloc : ReallocResult
deriving DecidableEq, Repr

/-! ## The visitors -/

/-- Preorder visitor `pc_match` (lines 47-79): result, the path entry with its
prune flag, and the state afterwards. -/
def pc_match (P : Provider) (_depth : Nat) (die : Dwarf_Die_Chain) (s : State) :
    Int × Dwarf_Die_Chain × State :=
  if s.a.scopes ≠ ScopesPtr.null then
    (0, { die with prune := true }, s)
  else
    let result := P.dwarf_haspc die.die s.a.pc
    if result < 0 then
      let error := P.dwarf_errno die.die s.a.pc
      if error ≠ DWARF_E_NOERROR ∧ error ≠ DWARF_E_NO_DEBUG_RANGES
          ∧ error ≠ DWARF_E_NO_DEBUG_RNGLISTS then
        (-1, die, { s with global_error := error })
      else
        (0, { die with prune := true }, { s with global_error := DWARF_E_NOERROR })
    else if result = 0 then
      (0, { die with prune := true }, s)
    else
      (0, die, s)

/-- The filtering loop of `pc_record` (lines 105-117) over `tmp`, `tmp->parent`,
... with `cells` the slots `a->scopes[0 .. cnt)` written so far
(`cnt = cells.length`) and `cap` the number of slots of the block; `none` when
a store falls outside the block. -/
def pc_record_loop (cap : Nat) : List Dwarf_Die → List Dwarf_Die → Option (List Dwarf_Die)
  | [], cells => some cells
  | tmp :: parent, cells =>
    if tmp.tag = DW_TAG_inlined_subroutine ∨ tmp.tag = DW_TAG_subroutine_type
        ∨ tmp.tag = DW_TAG_subprogram then
      if cells.length < cap then pc_record_loop cap parent (cells ++ [tmp]) else none
    else
      pc_record_loop cap parent cells

/-- Postorder visitor `pc_record` (lines 82-133): result and state afterwards,
`none` when the filtering loop stores outside the block. -/
def pc_record (M : Allocator) (depth : Nat) (die : Dwarf_Die_Chain) (s : State) :
    Option (Int × State) :=
  if die.prune = true ∨ s.a.scopes ≠ ScopesPtr.null then
    some (0, s)
  else if s.a.scopes = ScopesPtr.null then
    if M.malloc_ok = false then
      some (-1, { a := { s.a with nscopes := depth, scopes := ScopesPtr.null },
                  global_error := DWARF_E_NOMEM })
    else
      match pc_record_loop depth (die.die :: die.parent) [] with
      | none => none
      | some cells =>
        if cells.length = 0 then
          some (0, { s with a := { s.a with nscopes := 0, scopes := ScopesPtr.block depth [] } })
        else
          match M.realloc with
          | ReallocResult.failed =>
            some (-1, { a := { s.a with nscopes := cells.length, scopes := ScopesPtr.dangling },
                        global_error := DWARF_E_NOMEM })
          | ReallocResult.in_place =>
            some ((cells.length : Int),
                  { s with a := { s.a with nscopes := cells.length,
                                           scopes := ScopesPtr.block cells.length cells } })
          | ReallocResult.moved =>
            some ((cells.length : Int),
                  { s with a := { s.a with nscopes := cells.length,
                                           scopes := ScopesPtr.dangling } })
  else
    some ((s.a.nscopes : Int), s)

/-! ## The walker -/

/-- One call of a visitor, as seen by the walker: which hook, the depth and
path entry it was given, and the state it was called in. -/
structure Visit (σ : Type) where
  post : Bool
  depth : Nat
  die : Dwarf_Die_Chain
  arg : σ
deriving DecidableEq, Repr

/-- Modelled from the spec: the generic depth-first walker
`__libdw_visit_scopes`, which is not part of the sources at hand.  It walks the
children of the entry whose path is `root` (itself at `depth`): for each child
in document order it clears the prune flag, calls the preorder hook at
`depth + 1` with the path entry of the child (its parent link is `root`),
descends unless the hook set the prune flag, then calls the postorder hook; the
first non-zero result of a hook ends the walk at once and is the result of the
walk, which is 0 when every hook returned 0.  The hooks are not called on the
starting entry itself.  Next to the result and state it returns the visitor
calls it made, in order. -/
def __libdw_visit_scopes {σ : Type}
    (previsit : Nat → Dwarf_Die_Chain → σ → Int × Dwarf_Die_Chain × σ)
    (postvisit : Nat → Dwarf_Die_Chain → σ → Option (Int × σ))
    (depth : Nat) (root : List Dwarf_Die) : Dies → σ → Option (Int × σ × List (Visit σ))
  | Dies.nil, s => some (0, s, [])
  | Dies.cons d cs sib, s =>
    match previsit (depth + 1) ⟨d, root, false⟩ s with
    | (r1, child, s1) =>
      if r1 ≠ 0 then
        some (r1, s1, [⟨false, depth + 1, ⟨d, root, false⟩, s⟩])
      else
        match (if child.prune = true then some (0, s1, [])
               else __libdw_visit_scopes previsit postvisit (depth + 1) (d :: root) cs s1) with
        | none => none
        | some (r2, s2, t2) =>
          if r2 ≠ 0 then
            some (r2, s2, ⟨false, depth + 1, ⟨d, root, false⟩, s⟩ :: t2)
          else
            match postvisit (depth + 1) child s2 with
            | none => none
            | some (r3, s3) =>
              if r3 ≠ 0 then
                some (r3, s3, ⟨false, depth + 1, ⟨d, root, false⟩, s⟩ :: t2
                                ++ [⟨true, depth + 1, child, s2⟩])
              else
                match __libdw_visit_scopes previsit postvisit depth root sib s3 with
                | none => none
                | some (r4, s4, t4) =>
                  some (r4, s4, ⟨false, depth + 1, ⟨d, root, false⟩, s⟩ :: t2
                                  ++ ⟨true, depth + 1, child, s2⟩ :: t4)

/-! ## The entry point -/

/-- What a call of `dwarf_getfuncs_pc` leaves behind: the value returned, what
was stored through the `scopes` parameter (`none`: nothing was stored), the
libdw error state, and for reference the final query state and the visitor
calls of the walk. -/
structure Result where
  ret : Int
  scopes : Option ScopesPtr
  global_error : Dwarf_Error
  a : args
  trace : List (Visit State)
deriving DecidableEq, Repr

/-- Entry point `dwarf_getfuncs_pc` (lines 136-151); `err` is the libdw error
state on entry. -/
def dwarf_getfuncs_pc (P : Provider) (M : Allocator) (err : Dwarf_Error)
    (cudie : Option DieTree) (pc : Nat) : Option Result :=
  match cudie with
  | none => some ⟨-1, none, err, ⟨pc, ScopesPtr.null, 0⟩, []⟩
  | some cu =>
    match __libdw_visit_scopes (pc_match P) (pc_record M) 0 [cu.die] cu.children
        ⟨⟨pc, ScopesPtr.null, 0⟩, err⟩ with
    | none => none
    | some (result, s, t) =>
      some ⟨result, if result > 0 then some s.a.scopes else none, s.global_error, s.a, t⟩

/-! ## Vocabulary of the specification -/

/-- An entry of executable kind: inlined subroutine, subroutine type or
subprogram (the test of lines 109-111). -/
def is_func (d : Dwarf_Die) : Bool :=
  decide (d.tag = DW_TAG_inlined_subroutine ∨ d.tag = DW_TAG_subroutine_type
    ∨ d.tag = DW_TAG_subprogram)

/-- The range test reports the address contained. -/
def contained (P : Provider) (pc : Nat) (d : Dwarf_Die) : Prop :=
  0 < P.dwarf_haspc d pc

/-- The error codes `pc_match` tolerates: no error recorded, no
`.debug_ranges`, no `.debug_rnglists`. -/
def tolerated (e : Dwarf_Error) : Prop :=
  e = DWARF_E_NOERROR ∨ e = DWARF_E_NO_DEBUG_RANGES ∨ e = DWARF_E_NO_DEBUG_RNGLISTS

instance (e : Dwarf_Error) : Decidable (tolerated e) := by
  unfold tolerated; infer_instance

instance (P : Provider) (pc : Nat) (d : Dwarf_Die) : Decidable (contained P pc d) := by
  unfold contained; infer_instance

/-- The range test fails with an error code outside the tolerated set. -/
def hard_error (P : Provider) (pc : Nat) (d : Dwarf_Die) : Prop :=
  P.dwarf_haspc d pc < 0 ∧ ¬ tolerated (P.dwarf_errno d pc)

/-- The range test fails with a tolerated error code (a range-data gap). -/
def range_gap (P : Provider) (pc : Nat) (d : Dwarf_Die) : Prop :=
  P.dwarf_haspc d pc < 0 ∧ tolerated (P.dwarf_errno d pc)

/-- Every entry of a sibling run, and of the subtrees below, satisfies `p`. -/
def Dies.All (p : Dwarf_Die → Prop) : Dies → Prop
  | Dies.nil => True
  | Dies.cons d cs sib => p d ∧ Dies.All p cs ∧ Dies.All p sib

/-- The entries of a sibling run and of the subtrees below, in document
order. -/
def Dies.entries : Dies → List Dwarf_Die
  | Dies.nil => []
  | Dies.cons d cs sib => d :: (Dies.entries cs ++ Dies.entries sib)

/-- Written after the words of the specification: starting among the children
`kids` of the entry whose path is `root`, descend repeatedly into the first
child (in document order) whose range test reports the address contained, and
stop at an entry with no such child.  The result is that entry with its
ancestors (nearest first, the root last); `none` when no child of the starting
entry contains the address, that is, when the descent stays at the root. -/
def innermost (P : Provider) (pc : Nat) (root : List Dwarf_Die) :
    Dies → Option (Dwarf_Die × List Dwarf_Die)
  | Dies.nil => none
  | Dies.cons d cs sib =>
    if 0 < P.dwarf_haspc d pc then
      match innermost P pc (d :: root) cs with
      | some x => some x
      | none => some (d, root)
    else
      innermost P pc root sib

/-- The entries whose range test the descent of `innermost` looks at: at each
level the children in document order up to and including the first one that
contains the address, and then the children of that one likewise. -/
def consulted (P : Provider) (pc : Nat) : Dies → List Dwarf_Die
  | Dies.nil => []
  | Dies.cons d cs sib =>
    if 0 < P.dwarf_haspc d pc then d :: consulted P pc cs else d :: consulted P pc sib

/-- Written after the words of the specification: the leaf executable entries
for an address, that is, the entries of executable kind whose range test
reports the address contained and that have no entry of executable kind
anywhere below them. -/
def exec_leaves (P : Provider) (pc : Nat) : Dies → List Dwarf_Die
  | Dies.nil => []
  | Dies.cons d cs sib =>
    (if is_func d = true ∧ 0 < P.dwarf_haspc d pc ∧ (Dies.entries cs).all (fun c => !is_func c)
      then [d] else [])
      ++ exec_leaves P pc cs ++ exec_leaves P pc sib

/-- The postorder call that records a chain: the entry is not pruned and the
found slot is still unset. -/
def fires (v : Visit State) : Bool :=
  v.post && !v.die.prune && decide (v.arg.a.scopes = ScopesPtr.null)

/-- A provider for examples: every entry has a list of half-open address
ranges (looked up by its identity) and range tests never fail. -/
def range_provider (ranges : Nat → List (Nat × Nat)) : Provider where
  dwarf_haspc := fun d pc => if (ranges d.addr).any (fun r => r.1 ≤ pc && pc < r.2) then 1 else 0
  dwarf_errno := fun _ _ => DWARF_E_NOERROR

/-! ## Deciding the vocabulary -/

instance (P : Provider) (pc : Nat) (d : Dwarf_Die) : Decidable (hard_error P pc d) := by
  unfold hard_error; infer_instance

instance (P : Provider) (pc : Nat) (d : Dwarf_Die) : Decidable (range_gap P pc d) := by
  unfold range_gap; infer_instance

/-- Deciding `Dies.All` entry by entry. -/
def Dies.decAll (p : Dwarf_Die → Prop) [DecidablePred p] : (kids : Dies) → Decidable (Dies.All p kids)
  | Dies.nil => isTrue trivial
  | Dies.cons d cs sib =>
    have := Dies.decAll p cs
    have := Dies.decAll p sib
    inferInstanceAs (Decidable (p d ∧ Dies.All p cs ∧ Dies.All p sib))

instance (p : Dwarf_Die → Prop) [DecidablePred p] (kids : Dies) : Decidable (Dies.All p kids) :=
  Dies.decAll p kids

/-! ## The runs of the walk -/

/-- The runs of the walker with `pc_match` and `pc_record` as hooks:
`Walk P M depth root kids s r s1 t` says that the walk over `kids` from state
`s` ends with result `r` in state `s1` after the visitor calls `t`. -/
inductive Walk (P : Provider) (M : Allocator) :
    Nat → List Dwarf_Die → Dies → State → Int → State → List (Visit State) → Prop
  | nil (depth : Nat) (root : List Dwarf_Die) (s : State) :
      Walk P M depth root Dies.nil s 0 s []
  | fail (depth : Nat) (root : List Dwarf_Die) (d : Dwarf_Die) (cs sib : Dies) (s : State) :
      s.a.scopes = ScopesPtr.null → hard_error P s.a.pc d →
      Walk P M depth root (Dies.cons d cs sib) s (-1)
        { s with global_error := P.dwarf_errno d s.a.pc }
        [⟨false, depth + 1, ⟨d, root, false⟩, s⟩]
  | pruned (depth : Nat) (root : List Dwarf_Die) (d : Dwarf_Die) (cs sib : Dies) (s : State)
      (e : Dwarf_Error) (r4 : Int) (s4 : State) (t4 : List (Visit State)) :
      (s.a.scopes = ScopesPtr.null → ¬ 0 < P.dwarf_haspc d s.a.pc ∧ ¬ hard_error P s.a.pc d) →
      (s.a.scopes ≠ ScopesPtr.null → e = s.global_error) →
      Walk P M depth root sib ⟨s.a, e⟩ r4 s4 t4 →
      Walk P M depth root (Dies.cons d cs sib) s r4 s4
        (⟨false, depth + 1, ⟨d, root, false⟩, s⟩
          :: ⟨true, depth + 1, ⟨d, root, true⟩, ⟨s.a, e⟩⟩ :: t4)
  | sub_stop (depth : Nat) (root : List Dwarf_Die) (d : Dwarf_Die) (cs sib : Dies) (s : State)
      (r2 : Int) (s2 : State) (t2 : List (Visit State)) :
      s.a.scopes = ScopesPtr.null → 0 < P.dwarf_haspc d s.a.pc →
      Walk P M (depth + 1) (d :: root) cs s r2 s2 t2 → r2 ≠ 0 →
      Walk P M depth root (Dies.cons d cs sib) s r2 s2
        (⟨false, depth + 1, ⟨d, root, false⟩, s⟩ :: t2)
  | post_stop (depth : Nat) (root : List Dwarf_Die) (d : Dwarf_Die) (cs sib : Dies) (s : State)
      (s2 : State) (t2 : List (Visit State)) (r3 : Int) (s3 : State) :
      s.a.scopes = ScopesPtr.null → 0 < P.dwarf_haspc d s.a.pc →
      Walk P M (depth + 1) (d :: root) cs s 0 s2 t2 →
      pc_record M (depth + 1) ⟨d, root, false⟩ s2 = some (r3, s3) → r3 ≠ 0 →
      Walk P M depth root (Dies.cons d cs sib) s r3 s3
        (⟨false, depth + 1, ⟨d, root, false⟩, s⟩ :: t2
          ++ [⟨true, depth + 1, ⟨d, root, false⟩, s2⟩])
  | next (depth : Nat) (root : List Dwarf_Die) (d : Dwarf_Die) (cs sib : Dies) (s : State)
      (s2 : State) (t2 : List (Visit State)) (s3 : State)
      (r4 : Int) (s4 : State) (t4 : List (Visit State)) :
      s.a.scopes = ScopesPtr.null → 0 < P.dwarf_haspc d s.a.pc →
      Walk P M (depth + 1) (d :: root) cs s 0 s2 t2 →
      pc_record M (depth + 1) ⟨d, root, false⟩ s2 = some (0, s3) →
      Walk P M depth root sib s3 r4 s4 t4 →
      Walk P M depth root (Dies.cons d cs sib) s r4 s4
        (⟨false, depth + 1, ⟨d, root, false⟩, s⟩ :: t2
          ++ ⟨true, depth + 1, ⟨d, root, false⟩, s2⟩ :: t4)

/-- Result and query state of the recording call on entry `x` with ancestors
`anc`, made in query state `a`. -/
def recorded (M : Allocator) (x : Dwarf_Die) (anc : List Dwarf_Die) (a : args) :
    Option (Int × args) :=
  (pc_record M anc.length ⟨x, anc, false⟩ ⟨a, DWARF_E_NOERROR⟩).map fun y => (y.1, y.2.a)

/-! ## Example trees -/

/-- A compilation unit entry. -/
def ex_cu : Dwarf_Die := ⟨0x0b, DW_TAG_compile_unit⟩
/-- A subprogram covering `[0x1000, 0x2000)`. -/
def ex_subprogram : Dwarf_Die := ⟨0x2d, DW_TAG_subprogram⟩
/-- A lexical block covering `[0x1100, 0x1200)`. -/
def ex_block : Dwarf_Die := ⟨0x4a, DW_TAG_lexical_block⟩
/-- An inlined call covering `[0x1120, 0x1140)`. -/
def ex_inlined : Dwarf_Die := ⟨0x5c, DW_TAG_inlined_subroutine⟩
/-- A namespace: it has no address ranges of its own. -/
def ex_namespace : Dwarf_Die := ⟨0x1f, DW_TAG_namespace⟩
/-- A subprogram covering `[0x0, 0x8000)`, used as the root of a query. -/
def ex_outer : Dwarf_Die := ⟨0x10, DW_TAG_subprogram⟩

/-- The address ranges of the example entries, by identity. -/
def ex_ranges : Nat → List (Nat × Nat)
  | 0x0b => [(0x1000, 0x2000)]
  | 0x2d => [(0x1000, 0x2000)]
  | 0x4a => [(0x1100, 0x1200)]
  | 0x5c => [(0x1120, 0x1140)]
  | 0x10 => [(0x0, 0x8000)]
  | _ => []

/-- The provider of the examples. -/
def ex_provider : Provider := range_provider ex_ranges

/-- A provider whose every range test fails, leaving the error `e`. -/
def failing_provider (e : Dwarf_Error) : Provider where
  dwarf_haspc := fun _ _ => -1
  dwarf_errno := fun _ _ => e

/-- An allocator whose calls succeed and whose `realloc` trims in place. -/
def ex_alloc : Allocator := ⟨true, ReallocResult.in_place⟩

/-- A unit with a single subprogram. -/
def single_tree : DieTree :=
  ⟨ex_cu, Dies.cons ex_subprogram Dies.nil Dies.nil⟩

/-- A unit with a subprogram containing a lexical block containing an inlined
call. -/
def nested_tree : DieTree :=
  ⟨ex_cu, Dies.cons ex_subprogram
    (Dies.cons ex_block (Dies.cons ex_inlined Dies.nil Dies.nil) Dies.nil) Dies.nil⟩

/-- A unit with a namespace holding the single subprogram. -/
def namespace_tree : DieTree :=
  ⟨ex_cu, Dies.cons ex_namespace (Dies.cons ex_subprogram Dies.nil Dies.nil) Dies.nil⟩

/-- A unit with a lexical block directly below it. -/
def block_tree : DieTree :=
  ⟨ex_cu, Dies.cons ex_block Dies.nil (Dies.cons ex_subprogram Dies.nil Dies.nil)⟩

/-- A unit with a subprogram containing a lexical block. -/
def sub_block_tree : DieTree :=
  ⟨ex_cu, Dies.cons ex_subprogram (Dies.cons ex_block Dies.nil Dies.nil) Dies.nil⟩

/-- An allocator whose `malloc` fails. -/
def failing_alloc : Allocator := ⟨false, ReallocResult.in_place⟩

/-- A query rooted at a subprogram instead of a unit. -/
def func_root_tree : DieTree :=
  ⟨ex_outer, Dies.cons ex_subprogram Dies.nil Dies.nil⟩

/-- The example provider, except that the range data of the lexical block is
unreadable: its test fails with error code 16. -/
def broken_provider : Provider where
  dwarf_haspc := fun d pc => if d.addr = 0x4a then -1 else ex_provider.dwarf_haspc d pc
  dwarf_errno := fun _ _ => DWARF_E_OTHER 16

/-- An allocator whose `realloc` hands out the trimmed block at a new place. -/
def moving_alloc : Allocator := ⟨true, ReallocResult.moved⟩

/-- A query state whose found slot is set. -/
def found_state : State :=
  ⟨⟨0x1130, ScopesPtr.block 1 [ex_subprogram], 1⟩, DWARF_E_NOERROR⟩

/-! ## The filtering loop -/

theorem pc_record_loop_eq (cap : Nat) (path cells : List Dwarf_Die) (hcap : cells.length ≤ cap) :
    pc_record_loop cap path cells =
      if cells.length + (path.filter is_func).length ≤ cap
      then some (cells ++ path.filter is_func) else none := by
  induction path generalizing cells with
  | nil => simp [pc_record_loop, hcap]
  | cons d rest ih =>
    by_cases hd : d.tag = DW_TAG_inlined_subroutine ∨ d.tag = DW_TAG_subroutine_type
        ∨ d.tag = DW_TAG_subprogram
    · have hf : is_func d = true := by simp [is_func, hd]
      by_cases hc : cells.length < cap
      · have hcap2 : (cells ++ [d]).length ≤ cap := by simp; omega
        simp only [pc_record_loop, hd, hc, if_true, ih _ hcap2, List.filter_cons, hf,
          List.length_append, List.length_cons, List.length_nil, List.append_assoc,
          List.singleton_append]
        congr 1
        simp only [eq_iff_iff]
        omega
      · simp only [pc_record_loop, hd, hc, if_true, if_false, List.filter_cons, hf,
          List.length_cons]
        rw [if_neg]
        omega
    · have hf : is_func d = false := by simp [is_func, hd]
      simp [pc_record_loop, hd, ih _ hcap, List.filter_cons, hf]

theorem filter_length_le_of_mem (path : List Dwarf_Die) (d : Dwarf_Die) (hd : d ∈ path)
    (hf : is_func d = false) : (path.filter is_func).length + 1 ≤ path.length := by
  induction path with
  | nil => cases hd
  | cons x rest ih =>
    rcases List.mem_cons.mp hd with h | h
    · subst h
      have := List.length_filter_le is_func rest
      simp [List.filter_cons, hf]
      omega
    · have := ih h
      by_cases hx : is_func x = true
      · simp [List.filter_cons, hx]; omega
      · simp [List.filter_cons, hx]; omega

/-! ## The preorder visitor -/

theorem pc_match_latched (P : Provider) (depth : Nat) (die : Dwarf_Die_Chain) (s : State)
    (h : s.a.scopes ≠ ScopesPtr.null) :
    pc_match P depth die s = (0, { die with prune := true }, s) := by
  simp [pc_match, h]

theorem pc_match_contained (P : Provider) (depth : Nat) (die : Dwarf_Die_Chain) (s : State)
    (h0 : s.a.scopes = ScopesPtr.null) (hc : 0 < P.dwarf_haspc die.die s.a.pc) :
    pc_match P depth die s = (0, die, s) := by
  have h1 : ¬ P.dwarf_haspc die.die s.a.pc < 0 := by omega
  have h2 : ¬ P.dwarf_haspc die.die s.a.pc = 0 := by omega
  simp [pc_match, h0, h1, h2]

theorem pc_match_hard (P : Provider) (depth : Nat) (die : Dwarf_Die_Chain) (s : State)
    (h0 : s.a.scopes = ScopesPtr.null) (hh : hard_error P s.a.pc die.die) :
    pc_match P depth die s
      = (-1, die, { s with global_error := P.dwarf_errno die.die s.a.pc }) := by
  obtain ⟨h1, h2⟩ := hh
  simp only [tolerated, not_or] at h2
  simp [pc_match, h0, h1, h2]

theorem pc_match_skip (P : Provider) (depth : Nat) (die : Dwarf_Die_Chain) (s : State)
    (hc : ¬ 0 < P.dwarf_haspc die.die s.a.pc) (hh : ¬ hard_error P s.a.pc die.die) :
    ∃ e, pc_match P depth die s = (0, { die with prune := true }, ⟨s.a, e⟩) := by
  by_cases h0 : s.a.scopes = ScopesPtr.null
  · by_cases h1 : P.dwarf_haspc die.die s.a.pc < 0
    · have h2 : tolerated (P.dwarf_errno die.die s.a.pc) := by
        by_contra hn; exact hh ⟨h1, hn⟩
      have h3 : ¬ (P.dwarf_errno die.die s.a.pc ≠ DWARF_E_NOERROR
          ∧ P.dwarf_errno die.die s.a.pc ≠ DWARF_E_NO_DEBUG_RANGES
          ∧ P.dwarf_errno die.die s.a.pc ≠ DWARF_E_NO_DEBUG_RNGLISTS) := by
        unfold tolerated at h2; tauto
      exact ⟨DWARF_E_NOERROR, by simp only [pc_match, h0, h1, h3]; simp⟩
    · have h2 : P.dwarf_haspc die.die s.a.pc = 0 := by omega
      exact ⟨s.global_error, by simp [pc_match, h0, h2]⟩
  · exact ⟨s.global_error, by simp [pc_match, h0]⟩

/-- The three ways a call of `pc_match` can end. -/
theorem pc_match_cases (P : Provider) (depth : Nat) (die : Dwarf_Die_Chain) (s : State) :
    (s.a.scopes = ScopesPtr.null ∧ hard_error P s.a.pc die.die ∧
      pc_match P depth die s
        = (-1, die, { s with global_error := P.dwarf_errno die.die s.a.pc }))
    ∨ (s.a.scopes = ScopesPtr.null ∧ 0 < P.dwarf_haspc die.die s.a.pc ∧
      pc_match P depth die s = (0, die, s))
    ∨ ((s.a.scopes = ScopesPtr.null → ¬ 0 < P.dwarf_haspc die.die s.a.pc
          ∧ ¬ hard_error P s.a.pc die.die) ∧
      ∃ e, pc_match P depth die s = (0, { die with prune := true }, ⟨s.a, e⟩)) := by
  by_cases h0 : s.a.scopes = ScopesPtr.null
  · by_cases hh : hard_error P s.a.pc die.die
    · exact Or.inl ⟨h0, hh, pc_match_hard P depth die s h0 hh⟩
    · by_cases hc : 0 < P.dwarf_haspc die.die s.a.pc
      · exact Or.inr (Or.inl ⟨h0, hc, pc_match_contained P depth die s h0 hc⟩)
      · exact Or.inr (Or.inr ⟨fun _ => ⟨hc, hh⟩, pc_match_skip P depth die s hc hh⟩)
  · refine Or.inr (Or.inr ⟨fun h => absurd h h0, s.global_error, ?_⟩)
    rw [pc_match_latched P depth die s h0]

/-! ## The postorder visitor -/

theorem pc_record_noop (M : Allocator) (depth : Nat) (die : Dwarf_Die_Chain) (s : State)
    (h : die.prune = true ∨ s.a.scopes ≠ ScopesPtr.null) :
    pc_record M depth die s = some (0, s) := by
  simp [pc_record, h]

/-- The recording call spelled out: the entry is not pruned and the found slot
is unset. -/
theorem pc_record_fire (M : Allocator) (depth : Nat) (die : Dwarf_Die_Chain) (s : State)
    (hp : die.prune = false) (h0 : s.a.scopes = ScopesPtr.null) :
    pc_record M depth die s =
      if M.malloc_ok = false then
        some (-1, ⟨⟨s.a.pc, ScopesPtr.null, depth⟩, DWARF_E_NOMEM⟩)
      else if ((die.die :: die.parent).filter is_func).length ≤ depth then
        if ((die.die :: die.parent).filter is_func).length = 0 then
          some (0, ⟨⟨s.a.pc, ScopesPtr.block depth [], 0⟩, s.global_error⟩)
        else
          match M.realloc with
          | ReallocResult.failed =>
            some (-1, ⟨⟨s.a.pc, ScopesPtr.dangling,
              ((die.die :: die.parent).filter is_func).length⟩, DWARF_E_NOMEM⟩)
          | ReallocResult.in_place =>
            some ((((die.die :: die.parent).filter is_func).length : Int),
              ⟨⟨s.a.pc, ScopesPtr.block ((die.die :: die.parent).filter is_func).length
                ((die.die :: die.parent).filter is_func),
                ((die.die :: die.parent).filter is_func).length⟩, s.global_error⟩)
          | ReallocResult.moved =>
            some ((((die.die :: die.parent).filter is_func).length : Int),
              ⟨⟨s.a.pc, ScopesPtr.dangling,
                ((die.die :: die.parent).filter is_func).length⟩, s.global_error⟩)
      else none := by
  have hl := pc_record_loop_eq depth (die.die :: die.parent) [] (Nat.zero_le _)
  simp only [List.length_nil, Nat.zero_add, List.nil_append] at hl
  unfold pc_record
  rw [hl]
  by_cases hm : M.malloc_ok = false
  · simp [hp, h0, hm]
  · by_cases hc : ((die.die :: die.parent).filter is_func).length ≤ depth
    · by_cases hz : ((die.die :: die.parent).filter is_func).length = 0
      · simp [hp, h0, hm, hc, hz]
      · simp only [hp, h0, hm, hc, hz, if_true, if_false]
        cases M.realloc <;> simp
    · simp [hp, h0, hm, hc]

theorem pc_record_pc (M : Allocator) (depth : Nat) (die : Dwarf_Die_Chain) (s : State)
    (r : Int) (s1 : State) (h : pc_record M depth die s = some (r, s1)) : s1.a.pc = s.a.pc := by
  by_cases hn : die.prune = true ∨ s.a.scopes ≠ ScopesPtr.null
  · rw [pc_record_noop M depth die s hn] at h
    cases h; rfl
  · have hp : die.prune = false := by
      cases hd : die.prune
      · rfl
      · exact absurd (Or.inl hd) hn
    have h0 : s.a.scopes = ScopesPtr.null := by
      by_contra hc; exact hn (Or.inr hc)
    rw [pc_record_fire M depth die s hp h0] at h
    split at h
    · cases h; rfl
    · split at h
      · split at h
        · cases h; rfl
        · split at h <;> (cases h; rfl)
      · cases h

/-- A recording call that returns zero leaves the found slot set. -/
theorem pc_record_zero (M : Allocator) (depth : Nat) (die : Dwarf_Die_Chain) (s : State)
    (s1 : State) (hp : die.prune = false) (h : pc_record M depth die s = some (0, s1)) :
    s1.a.scopes ≠ ScopesPtr.null := by
  by_cases h0 : s.a.scopes = ScopesPtr.null
  · rw [pc_record_fire M depth die s hp h0] at h
    split at h
    · simp at h
    · split at h
      · split at h
        · cases h; simp
        · rename_i hz
          split at h
          · simp at h
          · simp only [Option.some.injEq, Prod.mk.injEq] at h
            obtain ⟨_, rfl⟩ := h
            simp
          · simp only [Option.some.injEq, Prod.mk.injEq] at h
            obtain ⟨_, rfl⟩ := h
            simp
      · cases h
  · rw [pc_record_noop M depth die s (Or.inr h0)] at h
    cases h; exact h0

/-! ## The walk with the two visitors, case by case -/

/-- Every result of the walker is a run of `Walk`. -/
theorem walk_sound (P : Provider) (M : Allocator) (kids : Dies) :
    ∀ (depth : Nat) (root : List Dwarf_Die) (s : State) (r : Int) (s1 : State)
      (t : List (Visit State)),
      __libdw_visit_scopes (pc_match P) (pc_record M) depth root kids s = some (r, s1, t) →
      Walk P M depth root kids s r s1 t := by
  induction kids with
  | nil =>
    intro depth root s r s1 t h
    simp only [__libdw_visit_scopes, Option.some.injEq, Prod.mk.injEq] at h
    obtain ⟨rfl, rfl, rfl⟩ := h
    exact Walk.nil depth root s
  | cons d cs sib ihc ihs =>
    intro depth root s r s1 t h
    rw [__libdw_visit_scopes] at h
    rcases pc_match_cases P (depth + 1) ⟨d, root, false⟩ s with
      ⟨h0, hh, hm⟩ | ⟨h0, hc, hm⟩ | ⟨hn, e, hm⟩
    · rw [hm] at h
      simp only [ne_eq, Int.reduceNeg, neg_eq_zero, one_ne_zero, not_false_eq_true, if_true,
        Option.some.injEq, Prod.mk.injEq] at h
      obtain ⟨rfl, rfl, rfl⟩ := h
      exact Walk.fail depth root d cs sib s h0 hh
    · rw [hm] at h
      simp only [ne_eq, not_true_eq_false, if_false, Bool.false_eq_true] at h
      cases hw : __libdw_visit_scopes (pc_match P) (pc_record M) (depth + 1) (d :: root) cs s with
      | none => rw [hw] at h; simp at h
      | some x =>
        obtain ⟨r2, s2, t2⟩ := x
        rw [hw] at h
        simp only at h
        have w2 := ihc _ _ _ _ _ _ hw
        by_cases hr2 : r2 = 0
        · subst hr2
          simp only [if_false, not_true_eq_false] at h
          cases hp : pc_record M (depth + 1) ⟨d, root, false⟩ s2 with
          | none => rw [hp] at h; simp at h
          | some y =>
            obtain ⟨r3, s3⟩ := y
            rw [hp] at h
            simp only at h
            by_cases hr3 : r3 = 0
            · subst hr3
              simp only [if_false, not_true_eq_false] at h
              cases hs : __libdw_visit_scopes (pc_match P) (pc_record M) depth root sib s3 with
              | none => rw [hs] at h; simp at h
              | some z =>
                obtain ⟨r4, s4, t4⟩ := z
                rw [hs] at h
                simp only [Option.some.injEq, Prod.mk.injEq] at h
                obtain ⟨rfl, rfl, rfl⟩ := h
                exact Walk.next depth root d cs sib s s2 t2 s3 r4 s4 t4 h0 hc w2 hp
                  (ihs _ _ _ _ _ _ hs)
            · simp only [hr3, if_true, not_false_eq_true, Option.some.injEq,
                Prod.mk.injEq] at h
              obtain ⟨rfl, rfl, rfl⟩ := h
              exact Walk.post_stop depth root d cs sib s s2 t2 _ _ h0 hc w2 hp hr3
        · simp only [hr2, if_true, not_false_eq_true, Option.some.injEq, Prod.mk.injEq] at h
          obtain ⟨rfl, rfl, rfl⟩ := h
          exact Walk.sub_stop depth root d cs sib s _ _ t2 h0 hc w2 hr2
    · rw [hm] at h
      simp only [ne_eq, not_true_eq_false, if_false, if_true] at h
      rw [pc_record_noop M (depth + 1) ⟨d, root, true⟩ ⟨s.a, e⟩ (Or.inl rfl)] at h
      simp only [not_true_eq_false, if_false] at h
      have he : s.a.scopes ≠ ScopesPtr.null → e = s.global_error := by
        intro hs
        rw [pc_match_latched P (depth + 1) ⟨d, root, false⟩ s hs] at hm
        simp only [Prod.mk.injEq] at hm
        have := congrArg State.global_error hm.2.2
        simpa using this.symm
      cases hs : __libdw_visit_scopes (pc_match P) (pc_record M) depth root sib ⟨s.a, e⟩ with
      | none => rw [hs] at h; simp at h
      | some z =>
        obtain ⟨r4, s4, t4⟩ := z
        rw [hs] at h
        simp only [List.nil_append, Option.some.injEq, Prod.mk.injEq] at h
        obtain ⟨rfl, rfl, rfl⟩ := h
        exact Walk.pruned depth root d cs sib s e _ _ t4 hn he (ihs _ _ _ _ _ _ hs)

/-! ## Once the found slot is set -/

theorem walk_latched (P : Provider) (M : Allocator) (depth : Nat) (root : List Dwarf_Die)
    (kids : Dies) (s : State) (r : Int) (s1 : State) (t : List (Visit State))
    (h : Walk P M depth root kids s r s1 t) :
    s.a.scopes ≠ ScopesPtr.null →
      r = 0 ∧ s1 = s ∧ ∀ v ∈ t, v.arg = s ∧ (v.post = true → v.die.prune = true) := by
  induction h with
  | nil depth root s => intro _; simp
  | fail depth root d cs sib s h0 hh => intro hs; exact absurd h0 hs
  | pruned depth root d cs sib s e r4 s4 t4 hn he hw ih =>
    intro hs
    have hes : (⟨s.a, e⟩ : State) = s := by rw [he hs]
    rw [hes] at ih
    obtain ⟨h1, h2, h3⟩ := ih hs
    refine ⟨h1, h2, ?_⟩
    intro v hv
    simp only [List.mem_cons] at hv
    rcases hv with rfl | rfl | hv
    · simp
    · simp [hes]
    · exact h3 v hv
  | sub_stop depth root d cs sib s r2 s2 t2 h0 hc hw hr ih => intro hs; exact absurd h0 hs
  | post_stop depth root d cs sib s s2 t2 r3 s3 h0 hc hw hp hr ih =>
    intro hs; exact absurd h0 hs
  | next depth root d cs sib s s2 t2 s3 r4 s4 t4 h0 hc hw hp hw4 ih2 ih4 =>
    intro hs; exact absurd h0 hs

theorem run_latched (P : Provider) (M : Allocator) (kids : Dies) :
    ∀ (depth : Nat) (root : List Dwarf_Die) (s : State), s.a.scopes ≠ ScopesPtr.null →
      ∃ t, __libdw_visit_scopes (pc_match P) (pc_record M) depth root kids s = some (0, s, t) := by
  induction kids with
  | nil => intro depth root s _; exact ⟨[], by simp [__libdw_visit_scopes]⟩
  | cons d cs sib _ ihs =>
    intro depth root s hs
    obtain ⟨t4, h4⟩ := ihs depth root s hs
    rw [__libdw_visit_scopes, pc_match_latched P (depth + 1) ⟨d, root, false⟩ s hs]
    simp only [ne_eq, not_true_eq_false, if_false, if_true]
    rw [pc_record_noop M (depth + 1) ⟨d, root, true⟩ s (Or.inl rfl)]
    simp only [not_true_eq_false, if_false, h4]
    exact ⟨_, rfl⟩

theorem fires_false_of_latched (t : List (Visit State))
    (h : ∀ v ∈ t, v.arg.a.scopes ≠ ScopesPtr.null) : t.countP fires = 0 := by
  rw [List.countP_eq_zero]
  intro v hv
  simp [fires, h v hv]

/-! ## The address of the query never changes -/

theorem walk_pc (P : Provider) (M : Allocator) (depth : Nat) (root : List Dwarf_Die)
    (kids : Dies) (s : State) (r : Int) (s1 : State) (t : List (Visit State))
    (h : Walk P M depth root kids s r s1 t) : s1.a.pc = s.a.pc := by
  induction h with
  | nil depth root s => rfl
  | fail depth root d cs sib s h0 hh => rfl
  | pruned depth root d cs sib s e r4 s4 t4 hn he hw ih => exact ih
  | sub_stop depth root d cs sib s r2 s2 t2 h0 hc hw hr ih => exact ih
  | post_stop depth root d cs sib s s2 t2 r3 s3 h0 hc hw hp hr ih =>
    rw [pc_record_pc M _ _ _ _ _ hp, ih]
  | next depth root d cs sib s s2 t2 s3 r4 s4 t4 h0 hc hw hp hw4 ih2 ih4 =>
    rw [ih4, pc_record_pc M _ _ _ _ _ hp, ih2]

/-! ## A hard error ends the walk -/

theorem walk_hard (P : Provider) (M : Allocator) (pc : Nat) (depth : Nat)
    (root : List Dwarf_Die) (kids : Dies) (s : State) (r : Int) (s1 : State)
    (t : List (Visit State)) (h : Walk P M depth root kids s r s1 t) :
    s.a.pc = pc → ∀ v ∈ t, v.post = false → v.arg.a.scopes = ScopesPtr.null →
      hard_error P pc v.die.die →
      r = -1 ∧ s1.global_error = P.dwarf_errno v.die.die pc ∧ ∃ before, t = before ++ [v] := by
  induction h with
  | nil depth root s => intro _ v hv; cases hv
  | fail depth root d cs sib s h0 hh =>
    intro hpc v hv _ _ _
    simp only [List.mem_singleton] at hv
    subst hv
    exact ⟨rfl, by simp [hpc], [], rfl⟩
  | pruned depth root d cs sib s e r4 s4 t4 hn he hw ih =>
    intro hpc v hv hpost h0 hh
    simp only [List.mem_cons] at hv
    rcases hv with rfl | rfl | hv
    · exact absurd (hpc ▸ hh) (hn h0).2
    · simp at hpost
    · obtain ⟨h1, h2, before, h3⟩ := ih hpc v hv hpost h0 hh
      exact ⟨h1, h2, _ :: _ :: before, by rw [h3]; rfl⟩
  | sub_stop depth root d cs sib s r2 s2 t2 h0 hc hw hr ih =>
    intro hpc v hv hpost hv0 hh
    simp only [List.mem_cons] at hv
    rcases hv with rfl | hv
    · have := hh.1
      simp only [← hpc] at this
      omega
    · obtain ⟨h1, h2, before, h3⟩ := ih hpc v hv hpost hv0 hh
      exact ⟨h1, h2, _ :: before, by rw [h3]; rfl⟩
  | post_stop depth root d cs sib s s2 t2 r3 s3 h0 hc hw hp hr ih =>
    intro hpc v hv hpost hv0 hh
    simp only [List.cons_append, List.mem_cons, List.mem_append, List.mem_singleton,
      List.not_mem_nil, or_false] at hv
    rcases hv with rfl | hv | rfl
    · have := hh.1
      simp only [← hpc] at this
      omega
    · have := (ih hpc v hv hpost hv0 hh).1
      omega
    · simp at hpost
  | next depth root d cs sib s s2 t2 s3 r4 s4 t4 h0 hc hw hp hw4 ih2 ih4 =>
    intro hpc v hv hpost hv0 hh
    simp only [List.cons_append, List.mem_cons, List.mem_append] at hv
    have hpc3 : s3.a.pc = pc := by
      rw [pc_record_pc M _ _ _ _ _ hp, walk_pc P M _ _ _ _ _ _ _ hw, hpc]
    rcases hv with rfl | hv | rfl | hv
    · have := hh.1
      simp only [← hpc] at this
      omega
    · have := (ih2 hpc v hv hpost hv0 hh).1
      omega
    · simp at hpost
    · obtain ⟨h1, h2, before, h3⟩ := ih4 hpc3 v hv hpost hv0 hh
      refine ⟨h1, h2, ⟨false, depth + 1, ⟨d, root, false⟩, s⟩
        :: (t2 ++ ⟨true, depth + 1, ⟨d, root, false⟩, s2⟩ :: before), ?_⟩
      rw [h3]
      simp

/-! ## The recording call -/

theorem fires_iff (v : Visit State) :
    fires v = true ↔ v.post = true ∧ v.die.prune = false ∧ v.arg.a.scopes = ScopesPtr.null := by
  simp [fires, and_assoc]

theorem pc_record_fire_zero (M : Allocator) (depth : Nat) (die : Dwarf_Die_Chain) (s : State)
    (hp : die.prune = false) (h0 : s.a.scopes = ScopesPtr.null) (hm : M.malloc_ok = true)
    (hz : ∀ d ∈ die.die :: die.parent, is_func d = false) :
    pc_record M depth die s
      = some (0, ⟨⟨s.a.pc, ScopesPtr.block depth [], 0⟩, s.global_error⟩) := by
  have hf : (die.die :: die.parent).filter is_func = [] := by
    rw [List.filter_eq_nil_iff]
    intro d hd
    simp [hz d hd]
  rw [pc_record_fire M depth die s hp h0, hf]
  simp [hm]

/-- A recording call on a path without entries of executable kind ends the
search with result zero, whatever comes later in the walk. -/
theorem walk_record_zero (P : Provider) (M : Allocator) (depth : Nat) (root : List Dwarf_Die)
    (kids : Dies) (s : State) (r : Int) (s1 : State) (t : List (Visit State))
    (h : Walk P M depth root kids s r s1 t) :
    M.malloc_ok = true → ∀ v ∈ t, fires v = true →
      (∀ d ∈ v.die.die :: v.die.parent, is_func d = false) →
      r = 0 ∧ s1.a.scopes ≠ ScopesPtr.null := by
  induction h with
  | nil depth root s => intro _ v hv; cases hv
  | fail depth root d cs sib s h0 hh =>
    intro _ v hv hf _
    simp only [List.mem_singleton] at hv
    subst hv
    simp [fires] at hf
  | pruned depth root d cs sib s e r4 s4 t4 hn he hw ih =>
    intro hm v hv hf hz
    simp only [List.mem_cons] at hv
    rcases hv with rfl | rfl | hv
    · simp [fires] at hf
    · simp [fires] at hf
    · exact ih hm v hv hf hz
  | sub_stop depth root d cs sib s r2 s2 t2 h0 hc hw hr ih =>
    intro hm v hv hf hz
    simp only [List.mem_cons] at hv
    rcases hv with rfl | hv
    · simp [fires] at hf
    · exact ih hm v hv hf hz
  | post_stop depth root d cs sib s s2 t2 r3 s3 h0 hc hw hp hr ih =>
    intro hm v hv hf hz
    simp only [List.cons_append, List.mem_cons, List.mem_append, List.mem_singleton,
      List.not_mem_nil, or_false] at hv
    rcases hv with rfl | hv | rfl
    · simp [fires] at hf
    · have h2 := (ih hm v hv hf hz).2
      rw [pc_record_noop M _ _ s2 (Or.inr h2)] at hp
      simp only [Option.some.injEq, Prod.mk.injEq] at hp
      exact absurd hp.1.symm hr
    · have h2 : s2.a.scopes = ScopesPtr.null := ((fires_iff _).mp hf).2.2
      rw [pc_record_fire_zero M _ _ s2 rfl h2 hm hz] at hp
      simp only [Option.some.injEq, Prod.mk.injEq] at hp
      exact absurd hp.1.symm hr
  | next depth root d cs sib s s2 t2 s3 r4 s4 t4 h0 hc hw hp hw4 ih2 ih4 =>
    intro hm v hv hf hz
    simp only [List.cons_append, List.mem_cons, List.mem_append] at hv
    have h3 : s3.a.scopes ≠ ScopesPtr.null := pc_record_zero M _ _ s2 s3 rfl hp
    obtain ⟨h4, h5, _⟩ := walk_latched P M _ _ _ _ _ _ _ hw4 h3
    exact ⟨h4, by rw [h5]; exact h3⟩

/-- At most one visitor call of a walk records a chain, and after it the walk
has either ended or the found slot is set. -/
theorem walk_fires_le_one (P : Provider) (M : Allocator) (depth : Nat) (root : List Dwarf_Die)
    (kids : Dies) (s : State) (r : Int) (s1 : State) (t : List (Visit State))
    (h : Walk P M depth root kids s r s1 t) :
    t.countP fires ≤ 1 ∧ (t.countP fires = 1 → r ≠ 0 ∨ s1.a.scopes ≠ ScopesPtr.null) := by
  induction h with
  | nil depth root s => simp
  | fail depth root d cs sib s h0 hh => simp [List.countP_cons, fires]
  | pruned depth root d cs sib s e r4 s4 t4 hn he hw ih =>
    simpa [List.countP_cons, fires] using ih
  | sub_stop depth root d cs sib s r2 s2 t2 h0 hc hw hr ih =>
    simpa [List.countP_cons, fires] using ih
  | post_stop depth root d cs sib s s2 t2 r3 s3 h0 hc hw hp hr ih =>
    have hcount : List.countP fires ((⟨false, depth + 1, ⟨d, root, false⟩, s⟩ : Visit State)
          :: t2 ++ [(⟨true, depth + 1, ⟨d, root, false⟩, s2⟩ : Visit State)])
        = t2.countP fires + if s2.a.scopes = ScopesPtr.null then 1 else 0 := by
      simp [List.countP_cons, List.countP_append, fires]
    rw [hcount]
    refine ⟨?_, fun _ => Or.inl hr⟩
    by_cases h2 : s2.a.scopes = ScopesPtr.null
    · have : t2.countP fires ≠ 1 := by
        intro h1
        rcases ih.2 h1 with h | h
        · exact h rfl
        · exact h h2
      have := ih.1
      simp only [h2, if_true]
      omega
    · simp only [h2, if_false]
      exact ih.1
  | next depth root d cs sib s s2 t2 s3 r4 s4 t4 h0 hc hw hp hw4 ih2 ih4 =>
    have hcount : List.countP fires ((⟨false, depth + 1, ⟨d, root, false⟩, s⟩ : Visit State)
          :: t2 ++ (⟨true, depth + 1, ⟨d, root, false⟩, s2⟩ : Visit State) :: t4)
        = t2.countP fires + (if s2.a.scopes = ScopesPtr.null then 1 else 0)
          + t4.countP fires := by
      simp [List.countP_cons, List.countP_append, fires]
      omega
    rw [hcount]
    have h3 : s3.a.scopes ≠ ScopesPtr.null := pc_record_zero M _ _ s2 s3 rfl hp
    obtain ⟨h4, h5, h6⟩ := walk_latched P M _ _ _ _ _ _ _ hw4 h3
    have ht4 : t4.countP fires = 0 :=
      fires_false_of_latched t4 (fun v hv => by rw [(h6 v hv).1]; exact h3)
    have hs4 : s4.a.scopes ≠ ScopesPtr.null := by rw [h5]; exact h3
    refine ⟨?_, fun _ => Or.inr hs4⟩
    rw [ht4]
    by_cases h2 : s2.a.scopes = ScopesPtr.null
    · have : t2.countP fires ≠ 1 := by
        intro h1
        rcases ih2.2 h1 with h | h
        · exact h rfl
        · exact h h2
      have := ih2.1
      simp only [h2, if_true]
      omega
    · simp only [h2, if_false]
      have := ih2.1
      omega

/-! ## Depth and path of every visitor call -/

theorem walk_paths (P : Provider) (M : Allocator) (depth : Nat) (root : List Dwarf_Die)
    (kids : Dies) (s : State) (r : Int) (s1 : State) (t : List (Visit State))
    (h : Walk P M depth root kids s r s1 t) :
    root.length = depth + 1 →
      ∀ v ∈ t, v.die.parent.length = v.depth ∧ root <:+ v.die.parent := by
  induction h with
  | nil depth root s => intro _ v hv; cases hv
  | fail depth root d cs sib s h0 hh =>
    intro hl v hv
    simp only [List.mem_singleton] at hv
    subst hv
    exact ⟨hl, List.suffix_refl _⟩
  | pruned depth root d cs sib s e r4 s4 t4 hn he hw ih =>
    intro hl v hv
    simp only [List.mem_cons] at hv
    rcases hv with rfl | rfl | hv
    · exact ⟨hl, List.suffix_refl _⟩
    · exact ⟨hl, List.suffix_refl _⟩
    · exact ih hl v hv
  | sub_stop depth root d cs sib s r2 s2 t2 h0 hc hw hr ih =>
    intro hl v hv
    simp only [List.mem_cons] at hv
    rcases hv with rfl | hv
    · exact ⟨hl, List.suffix_refl _⟩
    · obtain ⟨h1, h2⟩ := ih (by simp [hl]) v hv
      exact ⟨h1, (List.suffix_cons d root).trans h2⟩
  | post_stop depth root d cs sib s s2 t2 r3 s3 h0 hc hw hp hr ih =>
    intro hl v hv
    simp only [List.cons_append, List.mem_cons, List.mem_append, List.mem_singleton,
      List.not_mem_nil, or_false] at hv
    rcases hv with rfl | hv | rfl
    · exact ⟨hl, List.suffix_refl _⟩
    · obtain ⟨h1, h2⟩ := ih (by simp [hl]) v hv
      exact ⟨h1, (List.suffix_cons d root).trans h2⟩
    · exact ⟨hl, List.suffix_refl _⟩
  | next depth root d cs sib s s2 t2 s3 r4 s4 t4 h0 hc hw hp hw4 ih2 ih4 =>
    intro hl v hv
    simp only [List.cons_append, List.mem_cons, List.mem_append] at hv
    rcases hv with rfl | hv | rfl | hv
    · exact ⟨hl, List.suffix_refl _⟩
    · obtain ⟨h1, h2⟩ := ih2 (by simp [hl]) v hv
      exact ⟨h1, (List.suffix_cons d root).trans h2⟩
    · exact ⟨hl, List.suffix_refl _⟩
    · exact ih4 hl v hv

/-! ## No store outside the block -/

theorem filter_length_le (die : Dwarf_Die_Chain) (depth : Nat)
    (hl : die.parent.length = depth) (hx : ∃ x ∈ die.parent, is_func x = false) :
    ((die.die :: die.parent).filter is_func).length ≤ depth := by
  obtain ⟨x, hx1, hx2⟩ := hx
  have := filter_length_le_of_mem (die.die :: die.parent) x (List.mem_cons_of_mem _ hx1) hx2
  simp only [List.length_cons] at this
  omega

theorem pc_record_defined (M : Allocator) (depth : Nat) (die : Dwarf_Die_Chain) (s : State)
    (hl : die.parent.length = depth) (hx : ∃ x ∈ die.parent, is_func x = false) :
    ∃ r s1, pc_record M depth die s = some (r, s1) := by
  by_cases hn : die.prune = true ∨ s.a.scopes ≠ ScopesPtr.null
  · exact ⟨0, s, pc_record_noop M depth die s hn⟩
  · have hp : die.prune = false := by
      cases hd : die.prune
      · rfl
      · exact absurd (Or.inl hd) hn
    have h0 : s.a.scopes = ScopesPtr.null := by
      by_contra hc; exact hn (Or.inr hc)
    have hle := filter_length_le die depth hl hx
    rw [pc_record_fire M depth die s hp h0]
    by_cases hm : M.malloc_ok = false
    · simp [hm]
    · rw [if_neg hm, if_pos hle]
      split
      · exact ⟨_, _, rfl⟩
      · split <;> exact ⟨_, _, rfl⟩

/-- With an entry that is not of executable kind on the root path, the walk
has a defined result: no store of the filtering loop leaves the block. -/
theorem run_defined (P : Provider) (M : Allocator) (kids : Dies) :
    ∀ (depth : Nat) (root : List Dwarf_Die) (s : State), root.length = depth + 1 →
      (∃ x ∈ root, is_func x = false) →
      ∃ r s1 t, __libdw_visit_scopes (pc_match P) (pc_record M) depth root kids s
        = some (r, s1, t) := by
  induction kids with
  | nil => intro depth root s _ _; exact ⟨0, s, [], by simp [__libdw_visit_scopes]⟩
  | cons d cs sib ihc ihs =>
    intro depth root s hl hx
    rw [__libdw_visit_scopes]
    rcases pc_match_cases P (depth + 1) ⟨d, root, false⟩ s with
      ⟨h0, hh, hm⟩ | ⟨h0, hc, hm⟩ | ⟨hn, e, hm⟩
    · rw [hm]
      simp only [ne_eq, Int.reduceNeg, neg_eq_zero, one_ne_zero, not_false_eq_true, if_true]
      exact ⟨_, _, _, rfl⟩
    · rw [hm]
      simp only [ne_eq, not_true_eq_false, if_false, Bool.false_eq_true]
      have hx2 : ∃ x ∈ d :: root, is_func x = false := by
        obtain ⟨x, hx1, hx2⟩ := hx
        exact ⟨x, List.mem_cons_of_mem _ hx1, hx2⟩
      obtain ⟨r2, s2, t2, hw⟩ := ihc (depth + 1) (d :: root) s (by simp [hl]) hx2
      rw [hw]
      simp only
      by_cases hr2 : r2 = 0
      · subst hr2
        simp only [if_false, not_true_eq_false]
        obtain ⟨r3, s3, hp⟩ := pc_record_defined M (depth + 1) ⟨d, root, false⟩ s2 hl hx
        rw [hp]
        simp only
        by_cases hr3 : r3 = 0
        · subst hr3
          simp only [if_false, not_true_eq_false]
          obtain ⟨r4, s4, t4, hs⟩ := ihs depth root s3 hl hx
          rw [hs]
          exact ⟨_, _, _, rfl⟩
        · simp only [hr3, if_true, not_false_eq_true]
          exact ⟨_, _, _, rfl⟩
      · simp only [hr2, if_true, not_false_eq_true]
        exact ⟨_, _, _, rfl⟩
    · rw [hm]
      simp only [ne_eq, not_true_eq_false, if_false, if_true]
      rw [pc_record_noop M (depth + 1) ⟨d, root, true⟩ ⟨s.a, e⟩ (Or.inl rfl)]
      simp only [not_true_eq_false, if_false]
      obtain ⟨r4, s4, t4, hs⟩ := ihs depth root ⟨s.a, e⟩ hl hx
      rw [hs]
      exact ⟨_, _, _, rfl⟩

/-! ## The walk follows the descent into the first containing child -/

theorem recorded_eq (M : Allocator) (x : Dwarf_Die) (anc : List Dwarf_Die) (s : State) :
    (pc_record M anc.length ⟨x, anc, false⟩ s).map (fun y => (y.1, y.2.a))
      = recorded M x anc s.a := by
  unfold recorded
  by_cases h0 : s.a.scopes = ScopesPtr.null
  · rw [pc_record_fire M _ _ s rfl h0, pc_record_fire M _ _ ⟨s.a, DWARF_E_NOERROR⟩ rfl h0]
    split
    · rfl
    · split
      · split
        · rfl
        · split <;> rfl
      · rfl
  · rw [pc_record_noop M _ _ s (Or.inr h0),
      pc_record_noop M _ _ ⟨s.a, DWARF_E_NOERROR⟩ (Or.inr h0)]
    rfl

theorem recorded_zero (M : Allocator) (x : Dwarf_Die) (anc : List Dwarf_Die) (a a1 : args)
    (h : recorded M x anc a = some (0, a1)) : a1.scopes ≠ ScopesPtr.null := by
  unfold recorded at h
  cases hp : pc_record M anc.length ⟨x, anc, false⟩ ⟨a, DWARF_E_NOERROR⟩ with
  | none => rw [hp] at h; simp at h
  | some y =>
    obtain ⟨r, s1⟩ := y
    rw [hp] at h
    simp only [Option.map_some', Option.some.injEq, Prod.mk.injEq] at h
    obtain ⟨rfl, rfl⟩ := h
    exact pc_record_zero M _ _ _ _ rfl hp

theorem run_descent_consulted (P : Provider) (M : Allocator) (pc : Nat) (kids : Dies) :
    ∀ (depth : Nat) (root : List Dwarf_Die) (s : State), s.a.scopes = ScopesPtr.null →
      s.a.pc = pc → root.length = depth + 1 →
      (∀ d ∈ consulted P pc kids, ¬ hard_error P pc d) →
      (__libdw_visit_scopes (pc_match P) (pc_record M) depth root kids s).map
          (fun y => (y.1, y.2.1.a))
        = match innermost P pc root kids with
          | none => some (0, s.a)
          | some (x, anc) => recorded M x anc s.a := by
  induction kids with
  | nil => intro depth root s _ _ _ _; simp [__libdw_visit_scopes, innermost]
  | cons d cs sib ihc ihs =>
    intro depth root s h0 hpc hl hall
    have hd : ¬ hard_error P pc d := hall d (by unfold consulted; split <;> simp)
    rw [__libdw_visit_scopes]
    by_cases hc : 0 < P.dwarf_haspc d pc
    · have hcs : ∀ x ∈ consulted P pc cs, ¬ hard_error P pc x := fun x hx =>
        hall x (by rw [consulted, if_pos hc]; exact List.mem_cons_of_mem _ hx)
      have hc1 : 0 < P.dwarf_haspc (⟨d, root, false⟩ : Dwarf_Die_Chain).die s.a.pc := by
        rw [hpc]; exact hc
      rw [pc_match_contained P (depth + 1) ⟨d, root, false⟩ s h0 hc1]
      simp only [ne_eq, not_true_eq_false, if_false, Bool.false_eq_true, innermost, hc, if_true]
      have ih := ihc (depth + 1) (d :: root) s h0 hpc (by simp [hl]) hcs
      cases hw : __libdw_visit_scopes (pc_match P) (pc_record M) (depth + 1) (d :: root) cs s with
      | none =>
        rw [hw] at ih
        cases hi : innermost P pc (d :: root) cs with
        | none => rw [hi] at ih; simp at ih
        | some xa =>
          rw [hi] at ih
          simpa using ih
      | some y =>
        obtain ⟨r2, s2, t2⟩ := y
        rw [hw] at ih
        simp only [Option.map_some'] at ih
        cases hi : innermost P pc (d :: root) cs with
        | none =>
          rw [hi] at ih
          simp only [Option.some.injEq, Prod.mk.injEq] at ih
          obtain ⟨rfl, ha2⟩ := ih
          simp only [if_false, not_true_eq_false]
          have hrec := recorded_eq M d root s2
          rw [hl, ha2] at hrec
          rw [← hrec]
          cases hp : pc_record M (depth + 1) ⟨d, root, false⟩ s2 with
          | none => simp
          | some z =>
            obtain ⟨r3, s3⟩ := z
            simp only [Option.map_some']
            by_cases hr3 : r3 = 0
            · subst hr3
              have h3 : s3.a.scopes ≠ ScopesPtr.null := pc_record_zero M _ _ s2 s3 rfl hp
              obtain ⟨t4, h4⟩ := run_latched P M sib depth root s3 h3
              simp [h4]
            · simp [hr3]
        | some xa =>
          obtain ⟨x, anc⟩ := xa
          rw [hi] at ih
          simp only at ih
          simp only
          rw [← ih]
          by_cases hr2 : r2 = 0
          · subst hr2
            have h2 : s2.a.scopes ≠ ScopesPtr.null := recorded_zero M x anc s.a s2.a ih.symm
            obtain ⟨t4, h4⟩ := run_latched P M sib depth root s2 h2
            rw [pc_record_noop M _ _ s2 (Or.inr h2)]
            simp [h4]
          · simp [hr2]
    · have hsib : ∀ x ∈ consulted P pc sib, ¬ hard_error P pc x := fun x hx =>
        hall x (by rw [consulted, if_neg hc]; exact List.mem_cons_of_mem _ hx)
      have hc1 : ¬ 0 < P.dwarf_haspc (⟨d, root, false⟩ : Dwarf_Die_Chain).die s.a.pc := by
        rw [hpc]; exact hc
      have hh1 : ¬ hard_error P s.a.pc (⟨d, root, false⟩ : Dwarf_Die_Chain).die := by
        rw [hpc]; exact hd
      obtain ⟨e, hm⟩ := pc_match_skip P (depth + 1) ⟨d, root, false⟩ s hc1 hh1
      rw [hm]
      simp only [ne_eq, not_true_eq_false, if_false, if_true, innermost, hc]
      rw [pc_record_noop M (depth + 1) ⟨d, root, true⟩ ⟨s.a, e⟩ (Or.inl rfl)]
      simp only [not_true_eq_false, if_false]
      have ih := ihs depth root ⟨s.a, e⟩ h0 hpc hl hsib
      rw [← ih]
      cases hs : __libdw_visit_scopes (pc_match P) (pc_record M) depth root sib ⟨s.a, e⟩ with
      | none => simp
      | some z => simp

theorem consulted_of_all (P : Provider) (pc : Nat) (p : Dwarf_Die → Prop) (kids : Dies)
    (h : Dies.All p kids) : ∀ d ∈ consulted P pc kids, p d := by
  induction kids with
  | nil => intro d hd; cases hd
  | cons x cs sib ihc ihs =>
    intro d hd
    unfold consulted at hd
    split at hd
    · rcases List.mem_cons.mp hd with rfl | hd
      · exact h.1
      · exact ihc h.2.1 d hd
    · rcases List.mem_cons.mp hd with rfl | hd
      · exact h.1
      · exact ihs h.2.2 d hd

theorem run_descent (P : Provider) (M : Allocator) (pc : Nat) (kids : Dies)
    (depth : Nat) (root : List Dwarf_Die) (s : State) (h0 : s.a.scopes = ScopesPtr.null)
    (hpc : s.a.pc = pc) (hl : root.length = depth + 1)
    (hall : Dies.All (fun d => ¬ hard_error P pc d) kids) :
    (__libdw_visit_scopes (pc_match P) (pc_record M) depth root kids s).map
        (fun y => (y.1, y.2.1.a))
      = match innermost P pc root kids with
        | none => some (0, s.a)
        | some (x, anc) => recorded M x anc s.a :=
  run_descent_consulted P M pc kids depth root s h0 hpc hl
    (consulted_of_all P pc _ kids hall)

/-! ## Facts about the descent and the recording call used by the main results -/

theorem Dies.All.imp {p q : Dwarf_Die → Prop} (hpq : ∀ d, p d → q d) (kids : Dies)
    (h : Dies.All p kids) : Dies.All q kids := by
  induction kids with
  | nil => trivial
  | cons d cs sib ihc ihs => exact ⟨hpq d h.1, ihc h.2.1, ihs h.2.2⟩

theorem innermost_suffix (P : Provider) (pc : Nat) (kids : Dies) :
    ∀ (root : List Dwarf_Die) (x : Dwarf_Die) (anc : List Dwarf_Die),
      innermost P pc root kids = some (x, anc) → root <:+ anc := by
  induction kids with
  | nil => intro root x anc h; simp [innermost] at h
  | cons d cs sib ihc ihs =>
    intro root x anc h
    rw [innermost] at h
    split at h
    · cases hi : innermost P pc (d :: root) cs with
      | none =>
        rw [hi] at h
        simp only [Option.some.injEq, Prod.mk.injEq] at h
        rw [← h.2]
      | some xa =>
        rw [hi] at h
        simp only [Option.some.injEq] at h
        subst h
        exact (List.suffix_cons d root).trans (ihc _ _ _ hi)
    · exact ihs _ _ _ h

theorem innermost_none (P : Provider) (pc : Nat) (kids : Dies) :
    ∀ (root : List Dwarf_Die), Dies.All (fun d => ¬ 0 < P.dwarf_haspc d pc) kids →
      innermost P pc root kids = none := by
  induction kids with
  | nil => intro root _; rfl
  | cons d cs sib _ ihs =>
    intro root h
    rw [innermost, if_neg h.1]
    exact ihs root h.2.2

/-- The recording call when allocation succeeds and the block is large
enough. -/
theorem recorded_ok (M : Allocator) (x : Dwarf_Die) (anc : List Dwarf_Die) (a : args)
    (h0 : a.scopes = ScopesPtr.null) (hm : M.malloc_ok = true)
    (hr : M.realloc ≠ ReallocResult.failed)
    (hle : ((x :: anc).filter is_func).length ≤ anc.length) :
    ∃ a1, recorded M x anc a = some ((((x :: anc).filter is_func).length : Int), a1)
      ∧ a1.pc = a.pc
      ∧ (((x :: anc).filter is_func).length = 0 → a1.scopes = ScopesPtr.block anc.length [])
      ∧ (1 ≤ ((x :: anc).filter is_func).length → M.realloc = ReallocResult.in_place →
          a1.scopes = ScopesPtr.block ((x :: anc).filter is_func).length
            ((x :: anc).filter is_func)) := by
  unfold recorded
  rw [pc_record_fire M _ _ _ rfl h0]
  have hm1 : ¬ M.malloc_ok = false := by simp [hm]
  simp only
  rw [if_neg hm1, if_pos hle]
  by_cases hz : ((x :: anc).filter is_func).length = 0
  · rw [if_pos hz, hz]
    exact ⟨_, rfl, rfl, fun _ => rfl, fun h => absurd h (by omega)⟩
  · rw [if_neg hz]
    cases hre : M.realloc with
    | failed => exact absurd hre hr
    | in_place => exact ⟨_, rfl, rfl, fun h => absurd h hz, fun _ _ => rfl⟩
    | moved => exact ⟨_, rfl, rfl, fun h => absurd h hz, fun _ h => by cases h⟩

theorem recorded_nonneg (M : Allocator) (x : Dwarf_Die) (anc : List Dwarf_Die) (a a1 : args)
    (r : Int) (h0 : a.scopes = ScopesPtr.null) (hm : M.malloc_ok = true)
    (hr : M.realloc ≠ ReallocResult.failed) (h : recorded M x anc a = some (r, a1)) :
    0 ≤ r := by
  unfold recorded at h
  rw [pc_record_fire M _ _ _ rfl h0] at h
  have hm1 : ¬ M.malloc_ok = false := by simp [hm]
  simp only at h
  rw [if_neg hm1] at h
  split at h
  · split at h
    · simp only [Option.map_some', Option.some.injEq, Prod.mk.injEq] at h
      omega
    · split at h
      · rename_i hre; exact absurd hre hr
      · simp only [Option.map_some', Option.some.injEq, Prod.mk.injEq] at h
        omega
      · simp only [Option.map_some', Option.some.injEq, Prod.mk.injEq] at h
        omega
  · simp at h

/-- The entry point on a present root, in terms of the walk. -/
theorem dwarf_getfuncs_pc_some (P : Provider) (M : Allocator) (err : Dwarf_Error)
    (cu : DieTree) (pc : Nat) (res : Result) :
    dwarf_getfuncs_pc P M err (some cu) pc = some res ↔
      ∃ r s t, __libdw_visit_scopes (pc_match P) (pc_record M) 0 [cu.die] cu.children
          ⟨⟨pc, ScopesPtr.null, 0⟩, err⟩ = some (r, s, t)
        ∧ res = ⟨r, if r > 0 then some s.a.scopes else none, s.global_error, s.a, t⟩ := by
  unfold dwarf_getfuncs_pc
  simp only
  cases hw : __libdw_visit_scopes (pc_match P) (pc_record M) 0 [cu.die] cu.children
      ⟨⟨pc, ScopesPtr.null, 0⟩, err⟩ with
  | none => simp
  | some y =>
    obtain ⟨r, s, t⟩ := y
    constructor
    · intro h
      simp only [Option.some.injEq] at h
      exact ⟨r, s, t, rfl, h.symm⟩
    · rintro ⟨r1, s1, t1, h1, h2⟩
      simp only [Option.some.injEq, Prod.mk.injEq] at h1
      obtain ⟨rfl, rfl, rfl⟩ := h1
      rw [h2]

/-! ## Main results -/

/-- The walk of a query in which no range test fails with a hard error and
allocation succeeds, in terms of the descent into the first containing child. -/
theorem walk_of_innermost (P : Provider) (M : Allocator) (err : Dwarf_Error)
    (cu : DieTree) (pc : Nat) (x : Dwarf_Die) (anc : List Dwarf_Die)
    (hhard : ∀ d ∈ consulted P pc cu.children, ¬ hard_error P pc d)
    (hm : M.malloc_ok = true) (hr : M.realloc ≠ ReallocResult.failed)
    (hx : innermost P pc [cu.die] cu.children = some (x, anc))
    (hle : ((x :: anc).filter is_func).length ≤ anc.length) :
    ∃ s t, __libdw_visit_scopes (pc_match P) (pc_record M) 0 [cu.die] cu.children
        ⟨⟨pc, ScopesPtr.null, 0⟩, err⟩
          = some ((((x :: anc).filter is_func).length : Int), s, t)
      ∧ (1 ≤ ((x :: anc).filter is_func).length → M.realloc = ReallocResult.in_place →
          s.a.scopes = ScopesPtr.block ((x :: anc).filter is_func).length
            ((x :: anc).filter is_func)) := by
  have hd := run_descent_consulted P M pc cu.children 0 [cu.die] ⟨⟨pc, ScopesPtr.null, 0⟩, err⟩
    rfl rfl rfl hhard
  rw [hx] at hd
  simp only at hd
  obtain ⟨a1, hrec, _, _, hin⟩ := recorded_ok M x anc ⟨pc, ScopesPtr.null, 0⟩ rfl hm hr hle
  rw [hrec] at hd
  cases hw : __libdw_visit_scopes (pc_match P) (pc_record M) 0 [cu.die] cu.children
      ⟨⟨pc, ScopesPtr.null, 0⟩, err⟩ with
  | none => rw [hw] at hd; simp at hd
  | some y =>
    obtain ⟨r, s, t⟩ := y
    rw [hw] at hd
    simp only [Option.map_some', Option.some.injEq, Prod.mk.injEq] at hd
    obtain ⟨hr1, ha⟩ := hd
    subst hr1
    exact ⟨s, t, rfl, fun h1 hin1 => by rw [ha]; exact hin h1 hin1⟩

/-- C1 (as amended): when no range test fails with a hard error, `malloc` and
`realloc` succeed, the descent from the root into the first containing child
ends at an entry `x` other than the root, and some entry on the path from `x`
to the root (for instance a compilation-unit root) is not of executable kind,
`dwarf_getfuncs_pc` returns the number of executable-kind entries on that
path; nothing is stored for the caller when that number is zero, and when it
is at least one and `realloc` trimmed the block in place the chain stored for
the caller is exactly those entries, innermost first. -/
theorem scope_chain_of_innermost (P : Provider) (M : Allocator) (err : Dwarf_Error)
    (cu : DieTree) (pc : Nat) (x : Dwarf_Die) (anc : List Dwarf_Die)
    (hhard : Dies.All (fun d => ¬ hard_error P pc d) cu.children)
    (hm : M.malloc_ok = true) (hr : M.realloc ≠ ReallocResult.failed)
    (hx : innermost P pc [cu.die] cu.children = some (x, anc))
    (hnf : ∃ d ∈ x :: anc, is_func d = false) :
    ∃ res, dwarf_getfuncs_pc P M err (some cu) pc = some res
      ∧ res.ret = (((x :: anc).filter is_func).length : Int)
      ∧ (((x :: anc).filter is_func).length = 0 → res.scopes = none)
      ∧ (1 ≤ ((x :: anc).filter is_func).length → M.realloc = ReallocResult.in_place →
          res.scopes = some (ScopesPtr.block ((x :: anc).filter is_func).length
            ((x :: anc).filter is_func))) := by
  obtain ⟨d, hd1, hd2⟩ := hnf
  have hle : ((x :: anc).filter is_func).length ≤ anc.length := by
    have := filter_length_le_of_mem (x :: anc) d hd1 hd2
    simp only [List.length_cons] at this
    omega
  obtain ⟨s, t, hw, hin⟩ := walk_of_innermost P M err cu pc x anc
    (consulted_of_all P pc _ cu.children hhard) hm hr hx hle
  refine ⟨_, (dwarf_getfuncs_pc_some P M err cu pc _).mpr ⟨_, s, t, hw, rfl⟩, rfl, ?_, ?_⟩
  · intro h0
    simp [h0]
  · intro h1 hin1
    have hpos : ((((x :: anc).filter is_func).length : Nat) : Int) > 0 := by omega
    simp only [hpos, if_true, hin h1 hin1]

/-- C1, the scenario of the specification: subprogram `[0x1000, 0x2000)` >
lexical block `[0x1100, 0x1200)` > inlined call `[0x1120, 0x1140)`, queried at
`0x1130`, gives 2 and the chain inlined call, subprogram. -/
theorem scope_chain_of_innermost_witness :
    innermost ex_provider 0x1130 [nested_tree.die] nested_tree.children
        = some (ex_inlined, [ex_block, ex_subprogram, ex_cu])
    ∧ ∃ res, dwarf_getfuncs_pc ex_provider ex_alloc DWARF_E_NOERROR (some nested_tree) 0x1130
          = some res
        ∧ res.ret = 2
        ∧ res.scopes = some (ScopesPtr.block 2 [ex_inlined, ex_subprogram]) := by
  refine ⟨by decide, ?_⟩
  obtain ⟨res, h1, h2, _, h4⟩ := scope_chain_of_innermost ex_provider ex_alloc DWARF_E_NOERROR
    nested_tree 0x1130 ex_inlined [ex_block, ex_subprogram, ex_cu]
    (by decide) rfl (by decide) (by decide) ⟨ex_cu, by decide, by decide⟩
  exact ⟨res, h1, h2, h4 (by decide) rfl⟩

/-- C1 as stated fails when the root itself is of executable kind and so is
every entry below it on the path: rooted at a subprogram whose child
subprogram contains the address, the path has two executable-kind entries but
the block has one slot, so the second store leaves the block and no value (in
particular not 2 with a two-entry chain) is returned. -/
theorem scope_chain_func_root_counterexample :
    Dies.All (fun d => ¬ hard_error ex_provider 0x1500 d) func_root_tree.children
    ∧ ex_alloc.malloc_ok = true ∧ ex_alloc.realloc ≠ ReallocResult.failed
    ∧ innermost ex_provider 0x1500 [func_root_tree.die] func_root_tree.children
        = some (ex_subprogram, [ex_outer])
    ∧ (([ex_subprogram, ex_outer].filter is_func).length = 2)
    ∧ ¬ ∃ res, dwarf_getfuncs_pc ex_provider ex_alloc DWARF_E_NOERROR (some func_root_tree)
          0x1500 = some res ∧ res.ret = 2 := by
  refine ⟨by decide, rfl, by decide, by decide, by decide, ?_⟩
  rintro ⟨res, h, _⟩
  have hn : dwarf_getfuncs_pc ex_provider ex_alloc DWARF_E_NOERROR (some func_root_tree)
      0x1500 = none := by decide
  rw [hn] at h
  cases h

/-- C2 as stated fails on each of these queries, in all of which `0x1500` (or
`0x1130`) lies inside exactly one leaf executable entry, the childless
subprogram: (a) the subprogram sits below a namespace, which has no ranges and
is pruned, and the result is 0 with nothing stored; (b) a lexical block that
comes first among the children of the unit contains the address too, the
recording call is made on it, and the result is 0 with nothing stored; (c) the
range data of that earlier block is unreadable and the query fails with -1;
(d) `malloc` fails and the query fails with -1; (e) the root is itself a
subprogram, the second store leaves the one-slot block and no value is
returned. -/
theorem leaf_not_first_counterexample :
    (exec_leaves ex_provider 0x1500
        (Dies.cons namespace_tree.die namespace_tree.children Dies.nil) = [ex_subprogram]
      ∧ (dwarf_getfuncs_pc ex_provider ex_alloc DWARF_E_NOERROR (some namespace_tree)
          0x1500).map (fun r => (r.ret, r.scopes)) = some (0, none))
    ∧ (exec_leaves ex_provider 0x1130
        (Dies.cons block_tree.die block_tree.children Dies.nil) = [ex_subprogram]
      ∧ (dwarf_getfuncs_pc ex_provider ex_alloc DWARF_E_NOERROR (some block_tree)
          0x1130).map (fun r => (r.ret, r.scopes)) = some (0, none))
    ∧ (exec_leaves broken_provider 0x1500
        (Dies.cons block_tree.die block_tree.children Dies.nil) = [ex_subprogram]
      ∧ (dwarf_getfuncs_pc broken_provider ex_alloc DWARF_E_NOERROR (some block_tree)
          0x1500).map (fun r => (r.ret, r.scopes)) = some (-1, none))
    ∧ (exec_leaves ex_provider 0x1500
        (Dies.cons single_tree.die single_tree.children Dies.nil) = [ex_subprogram]
      ∧ (dwarf_getfuncs_pc ex_provider failing_alloc DWARF_E_NOERROR (some single_tree)
          0x1500).map (fun r => (r.ret, r.scopes)) = some (-1, none))
    ∧ (exec_leaves ex_provider 0x1500
        (Dies.cons func_root_tree.die func_root_tree.children Dies.nil) = [ex_subprogram]
      ∧ dwarf_getfuncs_pc ex_provider ex_alloc DWARF_E_NOERROR (some func_root_tree)
          0x1500 = none) := by
  refine ⟨⟨by decide, by decide⟩, ⟨by decide, by decide⟩, ⟨by decide, by decide⟩,
    ⟨by decide, by decide⟩, ⟨by decide, by decide⟩⟩

/-- C2 (as amended): when the descent from the root into the first containing
child (repeated until no child contains the address) passes through an entry
`L` of executable kind with no entry of executable kind below it on the path of
the descent, no range test the descent looks at fails with a hard error,
`malloc` and `realloc` succeed, and some entry on the path of the descent is
not of executable kind, `dwarf_getfuncs_pc` returns at least 1, and when
`realloc` trimmed the block in place the first element of the chain stored for
the caller is `L`. -/
theorem leaf_is_first (P : Provider) (M : Allocator) (err : Dwarf_Error)
    (cu : DieTree) (pc : Nat) (x : Dwarf_Die) (anc below above : List Dwarf_Die)
    (L : Dwarf_Die)
    (hhard : ∀ d ∈ consulted P pc cu.children, ¬ hard_error P pc d)
    (hm : M.malloc_ok = true) (hr : M.realloc ≠ ReallocResult.failed)
    (hx : innermost P pc [cu.die] cu.children = some (x, anc))
    (hpath : x :: anc = below ++ L :: above)
    (hbelow : ∀ d ∈ below, is_func d = false)
    (hL : is_func L = true)
    (hnf : ∃ d ∈ x :: anc, is_func d = false) :
    ∃ res, dwarf_getfuncs_pc P M err (some cu) pc = some res
      ∧ 1 ≤ res.ret
      ∧ (M.realloc = ReallocResult.in_place →
          ∃ rest, res.scopes = some (ScopesPtr.block (rest.length + 1) (L :: rest))) := by
  have hf : (x :: anc).filter is_func = L :: above.filter is_func := by
    rw [hpath, List.filter_append, List.filter_cons, if_pos hL]
    have hb : below.filter is_func = [] := by
      rw [List.filter_eq_nil_iff]
      intro d hd
      simp [hbelow d hd]
    rw [hb, List.nil_append]
  obtain ⟨d, hd1, hd2⟩ := hnf
  have hle : ((x :: anc).filter is_func).length ≤ anc.length := by
    have := filter_length_le_of_mem (x :: anc) d hd1 hd2
    simp only [List.length_cons] at this
    omega
  obtain ⟨s, t, hw, hin⟩ := walk_of_innermost P M err cu pc x anc hhard hm hr hx hle
  have hpos : ((((x :: anc).filter is_func).length : Nat) : Int) > 0 := by
    rw [hf]; simp
  refine ⟨_, (dwarf_getfuncs_pc_some P M err cu pc _).mpr ⟨_, s, t, hw, rfl⟩, ?_, ?_⟩
  · show 1 ≤ ((((x :: anc).filter is_func).length : Nat) : Int)
    omega
  · intro hin1
    refine ⟨above.filter is_func, ?_⟩
    simp only [hpos, if_true]
    rw [hin (by rw [hf]; simp) hin1, hf]
    simp

/-- C2, the scenario of the specification, and a leaf with a block below it: a
unit with a single subprogram covering `[0x1000, 0x2000)`, queried at `0x1500`,
gives the chain made of that subprogram; and so does, queried at `0x1150`, the
unit whose subprogram contains a lexical block covering `[0x1100, 0x1200)`,
where the descent ends at the block. -/
theorem leaf_is_first_witness :
    (innermost ex_provider 0x1500 [single_tree.die] single_tree.children
        = some (ex_subprogram, [ex_cu])
      ∧ ∃ res, dwarf_getfuncs_pc ex_provider ex_alloc DWARF_E_NOERROR (some single_tree)
            0x1500 = some res
          ∧ 1 ≤ res.ret
          ∧ ∃ rest, res.scopes
              = some (ScopesPtr.block (rest.length + 1) (ex_subprogram :: rest)))
    ∧ (innermost ex_provider 0x1150 [sub_block_tree.die] sub_block_tree.children
        = some (ex_block, [ex_subprogram, ex_cu])
      ∧ ∃ res, dwarf_getfuncs_pc ex_provider ex_alloc DWARF_E_NOERROR (some sub_block_tree)
            0x1150 = some res
          ∧ 1 ≤ res.ret
          ∧ ∃ rest, res.scopes
              = some (ScopesPtr.block (rest.length + 1) (ex_subprogram :: rest))) := by
  refine ⟨⟨by decide, ?_⟩, ⟨by decide, ?_⟩⟩
  · obtain ⟨res, h1, h2, h3⟩ := leaf_is_first ex_provider ex_alloc DWARF_E_NOERROR
      single_tree 0x1500 ex_subprogram [ex_cu] [] [ex_cu] ex_subprogram (by decide) rfl
      (by decide) (by decide) rfl (by decide) (by decide) ⟨ex_cu, by decide, by decide⟩
    exact ⟨res, h1, h2, h3 rfl⟩
  · obtain ⟨res, h1, h2, h3⟩ := leaf_is_first ex_provider ex_alloc DWARF_E_NOERROR
      sub_block_tree 0x1150 ex_block [ex_subprogram, ex_cu] [ex_block] [ex_cu] ex_subprogram
      (by decide) rfl (by decide) (by decide) rfl (by decide) (by decide)
      ⟨ex_cu, by decide, by decide⟩
    exact ⟨res, h1, h2, h3 rfl⟩

theorem pc_match_zero (P : Provider) (depth : Nat) (die : Dwarf_Die_Chain) (s : State)
    (h : P.dwarf_haspc die.die s.a.pc = 0) :
    pc_match P depth die s = (0, { die with prune := true }, s) := by
  by_cases h0 : s.a.scopes = ScopesPtr.null
  · simp [pc_match, h0, h]
  · exact pc_match_latched P depth die s h0

theorem run_not_contained (P : Provider) (M : Allocator) (pc : Nat) (kids : Dies) :
    ∀ (depth : Nat) (root : List Dwarf_Die) (s : State), s.a.pc = pc →
      Dies.All (fun d => P.dwarf_haspc d pc = 0) kids →
      ∃ t, __libdw_visit_scopes (pc_match P) (pc_record M) depth root kids s = some (0, s, t)
        ∧ t.countP fires = 0 := by
  induction kids with
  | nil => intro depth root s _ _; exact ⟨[], by simp [__libdw_visit_scopes]⟩
  | cons d cs sib _ ihs =>
    intro depth root s hpc hall
    obtain ⟨t4, h4, h5⟩ := ihs depth root s hpc hall.2.2
    have hz : P.dwarf_haspc (⟨d, root, false⟩ : Dwarf_Die_Chain).die s.a.pc = 0 := by
      rw [hpc]; exact hall.1
    rw [__libdw_visit_scopes, pc_match_zero P (depth + 1) ⟨d, root, false⟩ s hz]
    simp only [ne_eq, not_true_eq_false, if_false, if_true]
    rw [pc_record_noop M (depth + 1) ⟨d, root, true⟩ s (Or.inl rfl)]
    simp only [not_true_eq_false, if_false, h4]
    refine ⟨_, rfl, ?_⟩
    simp [List.countP_cons, fires, h5]

/-- C3: when the range test of every entry below the root reports the address
not contained, `dwarf_getfuncs_pc` returns 0, stores nothing for the caller,
leaves the found slot unset and the error state untouched, and no visitor call
records a chain. -/
theorem not_contained_gives_empty (P : Provider) (M : Allocator) (err : Dwarf_Error)
    (cu : DieTree) (pc : Nat)
    (h : Dies.All (fun d => P.dwarf_haspc d pc = 0) cu.children) :
    ∃ t, dwarf_getfuncs_pc P M err (some cu) pc
        = some ⟨0, none, err, ⟨pc, ScopesPtr.null, 0⟩, t⟩
      ∧ t.countP fires = 0 := by
  obtain ⟨t, h1, h2⟩ := run_not_contained P M pc cu.children 0 [cu.die]
    ⟨⟨pc, ScopesPtr.null, 0⟩, err⟩ rfl h
  exact ⟨t, (dwarf_getfuncs_pc_some P M err cu pc _).mpr ⟨0, _, t, h1, by simp⟩, h2⟩

/-- C3, the scenario of the specification: a unit with a single subprogram
covering `[0x1000, 0x2000)`, queried at `0x3000`. -/
theorem not_contained_gives_empty_witness :
    Dies.All (fun d => ex_provider.dwarf_haspc d 0x3000 = 0) single_tree.children
    ∧ ∃ t, dwarf_getfuncs_pc ex_provider ex_alloc DWARF_E_NOERROR (some single_tree) 0x3000
        = some ⟨0, none, DWARF_E_NOERROR, ⟨0x3000, ScopesPtr.null, 0⟩, t⟩
      ∧ t.countP fires = 0 :=
  ⟨by decide, not_contained_gives_empty ex_provider ex_alloc DWARF_E_NOERROR single_tree 0x3000
    (by decide)⟩

/-- C4: when some visitor call of a query records on a path that has no entry
of executable kind (the entry itself up to the root) and `malloc` succeeds,
`dwarf_getfuncs_pc` returns 0 and stores nothing for the caller, whatever the
entries visited later contain. -/
theorem empty_path_gives_zero (P : Provider) (M : Allocator) (err : Dwarf_Error)
    (cu : DieTree) (pc : Nat) (res : Result)
    (hrun : dwarf_getfuncs_pc P M err (some cu) pc = some res)
    (hm : M.malloc_ok = true) (v : Visit State) (hv : v ∈ res.trace)
    (hf : fires v = true) (hz : ∀ d ∈ v.die.die :: v.die.parent, is_func d = false) :
    res.ret = 0 ∧ res.scopes = none := by
  obtain ⟨r, s, t, hw, rfl⟩ := (dwarf_getfuncs_pc_some P M err cu pc res).mp hrun
  have hwalk := walk_sound P M cu.children 0 [cu.die] _ r s t hw
  obtain ⟨h1, _⟩ := walk_record_zero P M _ _ _ _ _ _ _ hwalk hm v hv hf hz
  subst h1
  exact ⟨rfl, by simp⟩

/-- C4 on an example: a lexical block directly below the unit contains
`0x1130`; the recording call on it finds no entry of executable kind, and the
subprogram that follows, which also contains the address, changes nothing. -/
theorem empty_path_gives_zero_witness :
    ∃ res, dwarf_getfuncs_pc ex_provider ex_alloc DWARF_E_NOERROR (some block_tree) 0x1130
        = some res
      ∧ (⟨true, 1, ⟨ex_block, [ex_cu], false⟩, ⟨⟨0x1130, ScopesPtr.null, 0⟩, DWARF_E_NOERROR⟩⟩
          : Visit State) ∈ res.trace
      ∧ contained ex_provider 0x1130 ex_subprogram
      ∧ res.ret = 0 ∧ res.scopes = none := by
  have ht : (dwarf_getfuncs_pc ex_provider ex_alloc DWARF_E_NOERROR (some block_tree)
      0x1130).map (fun r => decide ((⟨true, 1, ⟨ex_block, [ex_cu], false⟩,
        ⟨⟨0x1130, ScopesPtr.null, 0⟩, DWARF_E_NOERROR⟩⟩ : Visit State) ∈ r.trace))
      = some true := by decide
  cases h : dwarf_getfuncs_pc ex_provider ex_alloc DWARF_E_NOERROR (some block_tree) 0x1130 with
  | none => rw [h] at ht; cases ht
  | some res =>
    rw [h] at ht
    simp only [Option.map_some', Option.some.injEq, decide_eq_true_eq] at ht
    exact ⟨res, rfl, ht, by decide,
      empty_path_gives_zero ex_provider ex_alloc DWARF_E_NOERROR block_tree 0x1130 res h rfl _ ht
        (by decide) (by decide)⟩

theorem range_gap_not_hard (P : Provider) (pc : Nat) (d : Dwarf_Die)
    (h : range_gap P pc d) : ¬ hard_error P pc d := fun hh => hh.2 h.2

theorem range_gap_not_contained (P : Provider) (pc : Nat) (d : Dwarf_Die)
    (h : range_gap P pc d) : ¬ 0 < P.dwarf_haspc d pc := by
  have := h.1
  omega

/-- C5: when no range test below the root fails with an error code outside the
tolerated ones and `malloc` and `realloc` succeed, `dwarf_getfuncs_pc` on a
present root never returns a negative value, and it does return a value when
the root is not of executable kind; when every entry below the root reports a
tolerated range-data gap the result is 0, nothing is stored for the caller and
the found slot stays unset. -/
theorem gaps_never_fail (P : Provider) (M : Allocator) (err : Dwarf_Error)
    (cu : DieTree) (pc : Nat)
    (hhard : Dies.All (fun d => ¬ hard_error P pc d) cu.children)
    (hm : M.malloc_ok = true) (hr : M.realloc ≠ ReallocResult.failed) :
    (∀ res, dwarf_getfuncs_pc P M err (some cu) pc = some res → 0 ≤ res.ret)
    ∧ (is_func cu.die = false →
        ∃ res, dwarf_getfuncs_pc P M err (some cu) pc = some res ∧ 0 ≤ res.ret)
    ∧ (Dies.All (range_gap P pc) cu.children →
        ∃ res, dwarf_getfuncs_pc P M err (some cu) pc = some res ∧ res.ret = 0
          ∧ res.scopes = none ∧ res.a.scopes = ScopesPtr.null) := by
  have hd := run_descent P M pc cu.children 0 [cu.die] ⟨⟨pc, ScopesPtr.null, 0⟩, err⟩
    rfl rfl rfl hhard
  have hnn : ∀ res, dwarf_getfuncs_pc P M err (some cu) pc = some res → 0 ≤ res.ret := by
    intro res hrun
    obtain ⟨r, s, t, hw, rfl⟩ := (dwarf_getfuncs_pc_some P M err cu pc res).mp hrun
    rw [hw] at hd
    simp only [Option.map_some'] at hd
    cases hi : innermost P pc [cu.die] cu.children with
    | none =>
      rw [hi] at hd
      simp only [Option.some.injEq, Prod.mk.injEq] at hd
      simp [hd.1]
    | some xa =>
      obtain ⟨x, anc⟩ := xa
      rw [hi] at hd
      exact recorded_nonneg M x anc _ _ r rfl hm hr hd.symm
  refine ⟨hnn, ?_, ?_⟩
  · intro hroot
    obtain ⟨r, s, t, hw⟩ := run_defined P M cu.children 0 [cu.die]
      ⟨⟨pc, ScopesPtr.null, 0⟩, err⟩ rfl ⟨cu.die, List.mem_singleton.mpr rfl, hroot⟩
    have hrun := (dwarf_getfuncs_pc_some P M err cu pc _).mpr ⟨r, s, t, hw, rfl⟩
    exact ⟨_, hrun, hnn _ hrun⟩
  · intro hgap
    have hin := innermost_none P pc cu.children [cu.die]
      (Dies.All.imp (fun d h => range_gap_not_contained P pc d h) cu.children hgap)
    rw [hin] at hd
    cases hw : __libdw_visit_scopes (pc_match P) (pc_record M) 0 [cu.die] cu.children
        ⟨⟨pc, ScopesPtr.null, 0⟩, err⟩ with
    | none => rw [hw] at hd; simp at hd
    | some y =>
      obtain ⟨r, s, t⟩ := y
      rw [hw] at hd
      simp only [Option.map_some', Option.some.injEq, Prod.mk.injEq] at hd
      obtain ⟨rfl, ha⟩ := hd
      exact ⟨_, (dwarf_getfuncs_pc_some P M err cu pc _).mpr ⟨0, s, t, hw, rfl⟩, rfl,
        by simp, by simp [ha]⟩

/-- C5, the scenario of the specification: every entry reports that
`.debug_ranges` is missing. -/
theorem gaps_never_fail_witness :
    Dies.All (range_gap (failing_provider DWARF_E_NO_DEBUG_RANGES) 0x1130) nested_tree.children
    ∧ ∃ res, dwarf_getfuncs_pc (failing_provider DWARF_E_NO_DEBUG_RANGES) ex_alloc
          DWARF_E_NOERROR (some nested_tree) 0x1130 = some res
        ∧ res.ret = 0 ∧ res.scopes = none ∧ res.a.scopes = ScopesPtr.null :=
  ⟨by decide,
    (gaps_never_fail (failing_provider DWARF_E_NO_DEBUG_RANGES) ex_alloc DWARF_E_NOERROR
      nested_tree 0x1130 (by decide) rfl (by decide)).2.2 (by decide)⟩

/-- C6: when `pc_match` is called, with the found slot unset, on an entry
whose range test fails with an error code outside the tolerated set, the walk
ends with that call: `dwarf_getfuncs_pc` returns -1, the error state holds that
same error code, nothing is stored for the caller, and that call is the last
visitor call of the walk. -/
theorem hard_error_aborts (P : Provider) (M : Allocator) (err : Dwarf_Error)
    (cu : DieTree) (pc : Nat) (res : Result)
    (hrun : dwarf_getfuncs_pc P M err (some cu) pc = some res)
    (v : Visit State) (hv : v ∈ res.trace) (hpre : v.post = false)
    (h0 : v.arg.a.scopes = ScopesPtr.null) (hh : hard_error P pc v.die.die) :
    res.ret = -1 ∧ res.global_error = P.dwarf_errno v.die.die pc ∧ res.scopes = none
      ∧ res.trace.getLast? = some v := by
  obtain ⟨r, s, t, hw, rfl⟩ := (dwarf_getfuncs_pc_some P M err cu pc res).mp hrun
  have hwalk := walk_sound P M cu.children 0 [cu.die] _ r s t hw
  obtain ⟨h1, h2, before, h3⟩ := walk_hard P M pc _ _ _ _ _ _ _ hwalk rfl v hv hpre h0 hh
  subst h1
  refine ⟨rfl, h2, by simp, ?_⟩
  simp only [h3]
  simp

/-- C6 on an example: the subprogram contains `0x1130`, the range data of the
lexical block below it is unreadable; the query fails with that error and the
inlined call below the block is never visited. -/
theorem hard_error_aborts_witness :
    ∃ res, dwarf_getfuncs_pc broken_provider ex_alloc DWARF_E_NOERROR (some nested_tree) 0x1130
        = some res
      ∧ hard_error broken_provider 0x1130 ex_block
      ∧ res.ret = -1 ∧ res.global_error = DWARF_E_OTHER 16 ∧ res.scopes = none
      ∧ res.trace.getLast? = some ⟨false, 2, ⟨ex_block, [ex_subprogram, ex_cu], false⟩,
          ⟨⟨0x1130, ScopesPtr.null, 0⟩, DWARF_E_NOERROR⟩⟩ := by
  have ht : (dwarf_getfuncs_pc broken_provider ex_alloc DWARF_E_NOERROR (some nested_tree)
      0x1130).map (fun r => decide ((⟨false, 2, ⟨ex_block, [ex_subprogram, ex_cu], false⟩,
        ⟨⟨0x1130, ScopesPtr.null, 0⟩, DWARF_E_NOERROR⟩⟩ : Visit State) ∈ r.trace))
      = some true := by decide
  cases h : dwarf_getfuncs_pc broken_provider ex_alloc DWARF_E_NOERROR (some nested_tree)
      0x1130 with
  | none => rw [h] at ht; cases ht
  | some res =>
    rw [h] at ht
    simp only [Option.map_some', Option.some.injEq, decide_eq_true_eq] at ht
    exact ⟨res, rfl, by decide,
      hard_error_aborts broken_provider ex_alloc DWARF_E_NOERROR nested_tree 0x1130 res h _ ht
        rfl rfl (by decide)⟩

/-- C7: with the found slot unset (and the prune flag clear on entry, as the
walker leaves it), `pc_match` returns 0 or -1 and ends in exactly one of three
ways fixed by the range test: result 0 with the prune flag left clear iff the
test reports contained; result 0 with the prune flag set iff the test reports
not contained or fails with a tolerated error code; result -1 iff the test
fails with any other error code. -/
theorem pc_match_outcomes (P : Provider) (depth : Nat) (die : Dwarf_Die_Chain) (s : State)
    (h0 : s.a.scopes = ScopesPtr.null) (hp : die.prune = false) :
    ((pc_match P depth die s).1 = 0 ∨ (pc_match P depth die s).1 = -1)
    ∧ ((pc_match P depth die s).1 = 0 ∧ (pc_match P depth die s).2.1.prune = false
        ↔ contained P s.a.pc die.die)
    ∧ ((pc_match P depth die s).1 = 0 ∧ (pc_match P depth die s).2.1.prune = true
        ↔ P.dwarf_haspc die.die s.a.pc = 0 ∨ range_gap P s.a.pc die.die)
    ∧ ((pc_match P depth die s).1 = -1 ↔ hard_error P s.a.pc die.die) := by
  by_cases hh : hard_error P s.a.pc die.die
  · have hlt := hh.1
    have hnc : ¬ contained P s.a.pc die.die := by unfold contained; omega
    have hnz : ¬ P.dwarf_haspc die.die s.a.pc = 0 := by omega
    have hng : ¬ range_gap P s.a.pc die.die := fun hg => hh.2 hg.2
    rw [pc_match_hard P depth die s h0 hh]
    simp [hh, hnc, hnz, hng]
  · by_cases hc : 0 < P.dwarf_haspc die.die s.a.pc
    · have hnz : ¬ P.dwarf_haspc die.die s.a.pc = 0 := by omega
      have hng : ¬ range_gap P s.a.pc die.die := by
        intro hg
        have := hg.1
        omega
      rw [pc_match_contained P depth die s h0 hc]
      simp [hh, contained, hc, hnz, hng, hp]
    · obtain ⟨e, hm⟩ := pc_match_skip P depth die s hc hh
      have hzg : P.dwarf_haspc die.die s.a.pc = 0 ∨ range_gap P s.a.pc die.die := by
        by_cases hz : P.dwarf_haspc die.die s.a.pc = 0
        · exact Or.inl hz
        · refine Or.inr ⟨by omega, ?_⟩
          by_contra hn
          exact hh ⟨by omega, hn⟩
      rw [hm]
      simp [hh, contained, hc, hzg]

/-- C7 on an example: the subprogram contains `0x1130`, so the call returns 0
and leaves the prune flag clear. -/
theorem pc_match_outcomes_witness :
    contained ex_provider 0x1130 ex_subprogram
    ∧ pc_match ex_provider 1 ⟨ex_subprogram, [ex_cu], false⟩
        ⟨⟨0x1130, ScopesPtr.null, 0⟩, DWARF_E_NOERROR⟩
      = (0, ⟨ex_subprogram, [ex_cu], false⟩, ⟨⟨0x1130, ScopesPtr.null, 0⟩, DWARF_E_NOERROR⟩)
    ∧ ((pc_match ex_provider 1 ⟨ex_subprogram, [ex_cu], false⟩
          ⟨⟨0x1130, ScopesPtr.null, 0⟩, DWARF_E_NOERROR⟩).1 = -1
        ↔ hard_error ex_provider 0x1130 ex_subprogram) :=
  ⟨by decide, by decide,
    (pc_match_outcomes ex_provider 1 ⟨ex_subprogram, [ex_cu], false⟩
      ⟨⟨0x1130, ScopesPtr.null, 0⟩, DWARF_E_NOERROR⟩ rfl rfl).2.2.2⟩

/-- C8: once the found slot is set, every call of `pc_match` sets the prune
flag and returns 0 leaving the state as it is, and does so whatever the range
data says; every call of `pc_record` returns 0 leaving the state as it is; a
walk started in such a state returns 0 in the same state, every visitor call of
it sees that state and none records; and in every query at most one visitor
call records a chain. -/
theorem found_slot_latch (P Q : Provider) (M : Allocator) (depth : Nat)
    (die : Dwarf_Die_Chain) (root : List Dwarf_Die) (kids : Dies) (s : State)
    (hs : s.a.scopes ≠ ScopesPtr.null) :
    pc_match P depth die s = (0, { die with prune := true }, s)
    ∧ pc_match Q depth die s = pc_match P depth die s
    ∧ pc_record M depth die s = some (0, s)
    ∧ (∃ t, __libdw_visit_scopes (pc_match P) (pc_record M) depth root kids s = some (0, s, t)
        ∧ (∀ v ∈ t, v.arg = s) ∧ t.countP fires = 0)
    ∧ (∀ (err : Dwarf_Error) (cudie : Option DieTree) (pc : Nat) (res : Result),
        dwarf_getfuncs_pc P M err cudie pc = some res → res.trace.countP fires ≤ 1) := by
  refine ⟨pc_match_latched P depth die s hs, ?_, pc_record_noop M depth die s (Or.inr hs),
    ?_, ?_⟩
  · rw [pc_match_latched P depth die s hs, pc_match_latched Q depth die s hs]
  · obtain ⟨t, ht⟩ := run_latched P M kids depth root s hs
    have hwalk := walk_sound P M kids depth root s 0 s t ht
    obtain ⟨_, _, h3⟩ := walk_latched P M _ _ _ _ _ _ _ hwalk hs
    exact ⟨t, ht, fun v hv => (h3 v hv).1,
      fires_false_of_latched t (fun v hv => by rw [(h3 v hv).1]; exact hs)⟩
  · intro err cudie pc res hrun
    cases cudie with
    | none =>
      simp only [dwarf_getfuncs_pc, Option.some.injEq] at hrun
      subst hrun
      simp
    | some cu =>
      obtain ⟨r, s1, t, hw, rfl⟩ := (dwarf_getfuncs_pc_some P M err cu pc res).mp hrun
      exact (walk_fires_le_one P M _ _ _ _ _ _ _
        (walk_sound P M cu.children 0 [cu.die] _ r s1 t hw)).1

/-- C8 on an example: with the found slot set, a walk over the nested example
changes nothing, and the query on that example records once. -/
theorem found_slot_latch_witness :
    found_state.a.scopes ≠ ScopesPtr.null
    ∧ pc_match ex_provider 1 ⟨ex_subprogram, [ex_cu], false⟩ found_state
        = (0, ⟨ex_subprogram, [ex_cu], true⟩, found_state)
    ∧ pc_record ex_alloc 1 ⟨ex_subprogram, [ex_cu], false⟩ found_state = some (0, found_state)
    ∧ (∃ t, __libdw_visit_scopes (pc_match ex_provider) (pc_record ex_alloc) 0 [ex_cu]
          nested_tree.children found_state = some (0, found_state, t)
        ∧ (∀ v ∈ t, v.arg = found_state) ∧ t.countP fires = 0) := by
  have h := found_slot_latch ex_provider broken_provider ex_alloc 1
    ⟨ex_subprogram, [ex_cu], false⟩ [ex_cu] nested_tree.children found_state (by decide)
  have h2 := found_slot_latch ex_provider broken_provider ex_alloc 0
    ⟨ex_subprogram, [ex_cu], false⟩ [ex_cu] nested_tree.children found_state (by decide)
  exact ⟨by decide, h.1, h.2.2.1, h2.2.2.2.1⟩

/-- C9, the code at the failing input: on the nested example queried at
`0x1130`, when `realloc` hands out the trimmed block at a new place the query
still returns 2, but what is stored for the caller is the pointer to the
released block, not the chain inlined call, subprogram that the same query
yields when the block is trimmed in place. -/
theorem moved_block_is_lost :
    (dwarf_getfuncs_pc ex_provider moving_alloc DWARF_E_NOERROR (some nested_tree)
        0x1130).map (fun r => (r.ret, r.scopes)) = some (2, some ScopesPtr.dangling)
    ∧ (dwarf_getfuncs_pc ex_provider ex_alloc DWARF_E_NOERROR (some nested_tree)
        0x1130).map (fun r => (r.ret, r.scopes))
      = some (2, some (ScopesPtr.block 2 [ex_inlined, ex_subprogram])) := by
  constructor <;> decide

/-- A walk that returns a positive value while `realloc` trims in place:
some visitor call recorded, the found slot holds the executable-kind entries of
the path of that call (the entry first, then its ancestors in the order of the
parent links), and every entry of that path below the starting path `root`
passed the range test as contained. -/
theorem walk_chain_in_place (P : Provider) (M : Allocator) (pc : Nat) (depth : Nat)
    (root : List Dwarf_Die) (kids : Dies) (s : State) (r : Int) (s1 : State)
    (t : List (Visit State)) (h : Walk P M depth root kids s r s1 t) :
    s.a.pc = pc → 0 < r → M.realloc = ReallocResult.in_place →
      ∃ v ∈ t, fires v = true
        ∧ r = (((v.die.die :: v.die.parent).filter is_func).length : Int)
        ∧ s1.a.scopes = ScopesPtr.block ((v.die.die :: v.die.parent).filter is_func).length
            ((v.die.die :: v.die.parent).filter is_func)
        ∧ ∃ below, v.die.die :: v.die.parent = below ++ root
            ∧ ∀ d ∈ below, contained P pc d := by
  induction h with
  | nil depth root s => intro _ hr; omega
  | fail depth root d cs sib s h0 hh => intro _ hr; omega
  | pruned depth root d cs sib s e r4 s4 t4 hn he hw ih =>
    intro hpc hr hin
    obtain ⟨v, hv, h1⟩ := ih hpc hr hin
    exact ⟨v, List.mem_cons_of_mem _ (List.mem_cons_of_mem _ hv), h1⟩
  | sub_stop depth root d cs sib s r2 s2 t2 h0 hc hw hr2 ih =>
    intro hpc hr hin
    obtain ⟨v, hv, h1, h2, h3, below, h4, h5⟩ := ih hpc hr hin
    refine ⟨v, List.mem_cons_of_mem _ hv, h1, h2, h3, below ++ [d], by simp [h4], ?_⟩
    intro x hx
    rcases List.mem_append.mp hx with hx | hx
    · exact h5 x hx
    · rw [List.mem_singleton.mp hx]
      unfold contained
      rw [← hpc]
      exact hc
  | post_stop depth root d cs sib s s2 t2 r3 s3 h0 hc hw hp hr3 ih =>
    intro hpc hr hin
    have h2 : s2.a.scopes = ScopesPtr.null := by
      by_contra hne
      rw [pc_record_noop M _ _ s2 (Or.inr hne)] at hp
      simp only [Option.some.injEq, Prod.mk.injEq] at hp
      omega
    refine ⟨⟨true, depth + 1, ⟨d, root, false⟩, s2⟩, by simp, by simp [fires, h2], ?_⟩
    rw [pc_record_fire M _ _ s2 rfl h2] at hp
    simp only at hp
    have hcont : ∃ below, d :: root = below ++ root ∧ ∀ x ∈ below, contained P pc x := by
      refine ⟨[d], rfl, ?_⟩
      intro x hx
      rw [List.mem_singleton.mp hx]
      unfold contained
      rw [← hpc]
      exact hc
    split at hp
    · simp only [Option.some.injEq, Prod.mk.injEq] at hp
      omega
    · split at hp
      · split at hp
        · simp only [Option.some.injEq, Prod.mk.injEq] at hp
          omega
        · rw [hin] at hp
          simp only [Option.some.injEq, Prod.mk.injEq] at hp
          obtain ⟨hp1, hp2⟩ := hp
          subst hp2
          exact ⟨hp1.symm, rfl, hcont⟩
      · cases hp
  | next depth root d cs sib s s2 t2 s3 r4 s4 t4 h0 hc hw hp hw4 ih2 ih4 =>
    intro _ hr _
    have h3 : s3.a.scopes ≠ ScopesPtr.null := pc_record_zero M _ _ s2 s3 rfl hp
    have := (walk_latched P M _ _ _ _ _ _ _ hw4 h3).1
    omega

/-- The chain of a successful query when `realloc` trims in place: it is the
list of executable-kind entries of the path of the recording call, innermost
first, and every entry of that path other than the root passed the range test
as contained. -/
theorem chain_in_place (P : Provider) (M : Allocator) (err : Dwarf_Error)
    (cu : DieTree) (pc : Nat) (res : Result)
    (hrun : dwarf_getfuncs_pc P M err (some cu) pc = some res)
    (hpos : 0 < res.ret) (hin : M.realloc = ReallocResult.in_place) :
    ∃ v ∈ res.trace, fires v = true
      ∧ res.ret = (((v.die.die :: v.die.parent).filter is_func).length : Int)
      ∧ res.scopes = some (ScopesPtr.block ((v.die.die :: v.die.parent).filter is_func).length
          ((v.die.die :: v.die.parent).filter is_func))
      ∧ ∃ below, v.die.die :: v.die.parent = below ++ [cu.die]
          ∧ ∀ d ∈ below, contained P pc d := by
  obtain ⟨r, s, t, hw, rfl⟩ := (dwarf_getfuncs_pc_some P M err cu pc res).mp hrun
  have hwalk := walk_sound P M cu.children 0 [cu.die] _ r s t hw
  obtain ⟨v, hv, h1, h2, h3, h4⟩ := walk_chain_in_place P M pc _ _ _ _ _ _ _ hwalk rfl hpos hin
  have hr : r > 0 := hpos
  exact ⟨v, hv, h1, h2, by simp only [hr, if_true, h3], h4⟩

/-- C10: when the root is not of executable kind, the query has a defined
result (no store of the filtering loop leaves the block), and for every visitor
call that records a chain at depth `d`: the path from the recorded entry to the
root has `d + 1` entries and ends in the root, at most `d` of them are of
executable kind, and the filtering loop over a block of `d` slots completes
with every store inside the block. -/
theorem block_large_enough (P : Provider) (M : Allocator) (err : Dwarf_Error)
    (cu : DieTree) (pc : Nat) (hroot : is_func cu.die = false) :
    ∃ res, dwarf_getfuncs_pc P M err (some cu) pc = some res
      ∧ ∀ v ∈ res.trace, fires v = true →
          (v.die.die :: v.die.parent).length = v.depth + 1
          ∧ (v.die.die :: v.die.parent).getLast? = some cu.die
          ∧ ((v.die.die :: v.die.parent).filter is_func).length ≤ v.depth
          ∧ pc_record_loop v.depth (v.die.die :: v.die.parent) []
              = some ((v.die.die :: v.die.parent).filter is_func) := by
  obtain ⟨r, s, t, hw⟩ := run_defined P M cu.children 0 [cu.die]
    ⟨⟨pc, ScopesPtr.null, 0⟩, err⟩ rfl ⟨cu.die, List.mem_singleton.mpr rfl, hroot⟩
  refine ⟨_, (dwarf_getfuncs_pc_some P M err cu pc _).mpr ⟨r, s, t, hw, rfl⟩, ?_⟩
  intro v hv _
  have hwalk := walk_sound P M cu.children 0 [cu.die] _ r s t hw
  obtain ⟨hlen, hsuf⟩ := walk_paths P M _ _ _ _ _ _ _ hwalk rfl v hv
  have hmem : cu.die ∈ v.die.parent := hsuf.subset (List.mem_singleton.mpr rfl)
  have hle := filter_length_le v.die v.depth hlen ⟨cu.die, hmem, hroot⟩
  refine ⟨by simp [hlen], ?_, hle, ?_⟩
  · obtain ⟨before, hb⟩ := hsuf
    rw [← hb]
    rw [← List.cons_append, List.getLast?_concat]
  · rw [pc_record_loop_eq v.depth _ [] (Nat.zero_le _)]
    simp [hle]

/-- C10 on the nested example: the recording call is made at depth 3 on a path
of 4 entries, 2 of them of executable kind. -/
theorem block_large_enough_witness :
    is_func nested_tree.die = false
    ∧ ∃ res, dwarf_getfuncs_pc ex_provider ex_alloc DWARF_E_NOERROR (some nested_tree) 0x1130
          = some res
        ∧ ∀ v ∈ res.trace, fires v = true →
            (v.die.die :: v.die.parent).length = v.depth + 1
            ∧ (v.die.die :: v.die.parent).getLast? = some nested_tree.die
            ∧ ((v.die.die :: v.die.parent).filter is_func).length ≤ v.depth
            ∧ pc_record_loop v.depth (v.die.die :: v.die.parent) []
                = some ((v.die.die :: v.die.parent).filter is_func) :=
  ⟨by decide, block_large_enough ex_provider ex_alloc DWARF_E_NOERROR nested_tree 0x1130
    (by decide)⟩

end Drgn
